import Mathlib

/-!
Verification of the sandboxed script-execution engine
(`src/backend/src/custom-widgets/services/script-executor.service.ts`).

The development shallowly embeds the engine: the textual layers
(`validateScript`, `extractVariableNames`, the blocked-pattern scan) are
translated directly from the source as executable functions over `String`;
the V8 `vm` layer (context creation, `JSON.stringify`/`JSON.parse`,
script evaluation) is modelled by an explicit value type tagged with the
realm that owns each object, a JSON printer/parser pair, and a
fuel-bounded evaluator for the statement/expression fragment exercised by
user scripts.  `execute` is then assembled from those pieces following
the control flow of the source, instrumented with a trace that counts
realm constructions and script runs.
-/

namespace Inker

/-- Realm tag: distinguishes values owned by the host Node.js process from
values owned by the fresh V8 context created by `vm.createContext` for a
single `execute` call. -/
inductive Realm where
  | host
  | guest
deriving DecidableEq, Repr

/-- JavaScript-like runtime values.  Composite values (objects, arrays,
functions) carry the realm that owns them: following V8 semantics, an
object's prototype chain (and hence its `constructor`) belongs to the
realm in which the object was created. -/
inductive Val where
  | vundef
  | vnull
  | vbool (b : Bool)
  | vnum (n : Int)
  | vstr (s : String)
  | varr (owner : Realm) (elems : List Val)
  | vobj (owner : Realm) (fields : List (String × Val))
  | vfun (owner : Realm) (name : String)

/-- The engine's timeout option passed to every `runInContext` call
(`TIMEOUT_MS` in the source), reused here as the evaluation fuel. -/
def TIMEOUT_MS : Nat := 1000

/-- Size ceiling on scripts (`MAX_SCRIPT_LENGTH` in the source). -/
def MAX_SCRIPT_LENGTH : Nat := 10000

/-- The fixed denylist (`BLOCKED_PATTERNS` in the source), with the
regex word-boundary anchors stripped: every pattern in the source has the
form `\b tok \b` and `tok` consists of word characters only. -/
def BLOCKED_PATTERNS : List String :=
  ["constructor", "__proto__", "prototype", "Function", "eval", "import",
   "globalThis", "process", "require", "Proxy", "Reflect", "Symbol",
   "WeakRef", "FinalizationRegistry"]

/-- The word-character class `[A-Za-z0-9_]` of the JS regex `\w`,
which defines the `\b` word boundary. -/
def isWordChar (c : Char) : Bool :=
  ('a' ≤ c && c ≤ 'z') || ('A' ≤ c && c ≤ 'Z') || ('0' ≤ c && c ≤ '9') || c = '_'

/-- Does the token occur literally at the head of the text? -/
def matchesAt : List Char → List Char → Bool
  | [], _ => true
  | _ :: _, [] => false
  | t :: ts, c :: cs => t = c && matchesAt ts cs

/-- The right word boundary: the text after the occurrence either ends or
continues with a non-word character. -/
def tailBoundary : List Char → Bool
  | [] => true
  | c :: _ => !isWordChar c

/-- Scan for an occurrence of `tok` that is flanked by word boundaries,
carrying the previously consumed character.  This models
`RegExp.test` for a pattern `\b tok \b` where `tok` consists of word
characters only: the left boundary holds iff the occurrence is at the
start or preceded by a non-word character. -/
def wordOccursAux (tok : List Char) : Option Char → List Char → Bool
  | _, [] => false
  | prev, c :: cs =>
    ((match prev with
      | none => true
      | some p => !isWordChar p)
      && matchesAt tok (c :: cs)
      && tailBoundary (List.drop tok.length (c :: cs)))
    || wordOccursAux tok (some c) cs

/-- Model of `new RegExp("\\b" ++ tok ++ "\\b").test code` for a token of
word characters: some whole-word occurrence of `tok` exists in `code`. -/
def wordTest (tok : String) (code : String) : Bool :=
  wordOccursAux tok.data none code.data

/-- Error message thrown for oversized scripts (source line 99). -/
def scriptTooLargeMsg (len : Nat) : String :=
  "Script too large: " ++ toString len ++ " characters (max "
    ++ toString MAX_SCRIPT_LENGTH ++ ")"

/-- Error message thrown for a denylisted token (source line 106); the
source recovers the bare token by deleting the `\b` anchors from the
pattern source. -/
def forbiddenKeywordMsg (tok : String) : String :=
  "Script contains forbidden keyword: " ++ tok

/-- `ScriptExecutorService.validateScript`: size ceiling first, then the
blocked patterns in order; a throw is modelled as `Except.error` carrying
the thrown message. -/
def validateScript (code : String) : Except String Unit :=
  if code.length > MAX_SCRIPT_LENGTH then
    .error (scriptTooLargeMsg code.length)
  else
    match BLOCKED_PATTERNS.find? (fun tok => wordTest tok code) with
    | some tok => .error (forbiddenKeywordMsg tok)
    | none => .ok ()

/-- JS regex `\s`, restricted to the ASCII range used by scripts in this
development: space, tab, line feed, vertical tab, form feed, carriage
return. -/
def isJsSpace (c : Char) : Bool :=
  c = ' ' || c = '\t' || c = '\n' || c = '\r' || c.toNat = 11 || c.toNat = 12

/-- Identifier start class `[a-zA-Z_$]` of the extraction regex. -/
def isIdentStart (c : Char) : Bool :=
  ('a' ≤ c && c ≤ 'z') || ('A' ≤ c && c ≤ 'Z') || c = '_' || c = '$'

/-- Identifier continuation class `[a-zA-Z0-9_$]` of the extraction regex. -/
def isIdentChar (c : Char) : Bool :=
  isIdentStart c || ('0' ≤ c && c ≤ '9')

/-- Greedily take one identifier (`[a-zA-Z_$][a-zA-Z0-9_$]*`) from the
head of the text, returning it with the remaining text. -/
def takeIdent : List Char → Option (List Char × List Char)
  | [] => none
  | c :: cs =>
    if isIdentStart c then some (c :: cs.takeWhile isIdentChar, cs.dropWhile isIdentChar)
    else none

/-- Try to match `kw` then `\s+` then an identifier at the head of the
text; on success return the identifier and the text after the whole
match. -/
def matchKwDecl (kw : String) (cs : List Char) : Option (String × List Char) :=
  if matchesAt kw.data cs then
    let after := List.drop kw.length cs
    let sp := after.takeWhile isJsSpace
    let rest := after.dropWhile isJsSpace
    if sp.isEmpty then none
    else
      match takeIdent rest with
      | some (nm, rest') => some (String.mk nm, rest')
      | none => none
  else none

/-- One attempt of the extraction regex
`(?:var|let|const)\s+([a-zA-Z_$][a-zA-Z0-9_$]*)` at the current
position, with the alternation tried in source order. -/
def matchDeclAt (cs : List Char) : Option (String × List Char) :=
  match matchKwDecl "var" cs with
  | some r => some r
  | none =>
    match matchKwDecl "let" cs with
    | some r => some r
    | none => matchKwDecl "const" cs

/-- Model of `name.startsWith("__")` (source line 172): does the name
begin with the internal double-underscore prefix? -/
def startsWithUU (nm : String) : Bool :=
  match nm.data with
  | '_' :: '_' :: _ => true
  | _ => false

/-- The `exec` loop of `extractVariableNames`: find successive matches,
resuming after each full match, skipping captured names that start with
the internal prefix `__` (source line 172).  `fuel` bounds the scan; the
caller supplies the text length, which suffices because every step
consumes at least one character. -/
def scanDecls : Nat → List Char → List String
  | 0, _ => []
  | _ + 1, [] => []
  | fuel + 1, c :: cs =>
    match matchDeclAt (c :: cs) with
    | some (nm, rest) =>
      if startsWithUU nm then scanDecls fuel rest
      else nm :: scanDecls fuel rest
    | none => scanDecls fuel cs

/-- Worker for `dedupFirst`, carrying the names already emitted. -/
def dedupAux (seen : List String) : List String → List String
  | [] => []
  | n :: ns => if n ∈ seen then dedupAux seen ns else n :: dedupAux (n :: seen) ns

/-- `[...new Set names]`: de-duplicate keeping the first occurrence of
each name. -/
def dedupFirst (names : List String) : List String :=
  dedupAux [] names

/-- `ScriptExecutorService.extractVariableNames`: scan the raw code text
for declaration keywords, collect the following identifiers, drop
internal `__` names, and de-duplicate. -/
def extractVariableNames (code : String) : List String :=
  dedupFirst (scanDecls code.length code.data)

open Val

/-- Structural induction principle for `Val` that hands the nested list
members to the inductive hypothesis. -/
theorem Val.inductionOn {P : Val → Prop}
    (hundef : P vundef) (hnull : P vnull)
    (hbool : ∀ b, P (vbool b)) (hnum : ∀ n, P (vnum n))
    (hstr : ∀ s, P (vstr s))
    (harr : ∀ o es, (∀ v ∈ es, P v) → P (varr o es))
    (hobj : ∀ o fs, (∀ kv ∈ fs, P kv.2) → P (vobj o fs))
    (hfun : ∀ o n, P (vfun o n)) : ∀ v, P v
  | vundef => hundef
  | vnull => hnull
  | vbool b => hbool b
  | vnum n => hnum n
  | vstr s => hstr s
  | varr o es => harr o es (fun v hv =>
      have : sizeOf v < 1 + sizeOf o + sizeOf es := by
        have h1 := List.sizeOf_lt_of_mem hv
        omega
      Val.inductionOn hundef hnull hbool hnum hstr harr hobj hfun v)
  | vobj o fs => hobj o fs (fun kv hkv =>
      have : sizeOf kv.2 < 1 + sizeOf o + sizeOf fs := by
        have h1 := List.sizeOf_lt_of_mem hkv
        have h2 : sizeOf kv.2 < sizeOf kv := by
          cases kv
          simp only [Prod.mk.sizeOf_spec]
          omega
        omega
      Val.inductionOn hundef hnull hbool hnum hstr harr hobj hfun kv.2)
  | vfun o n => hfun o n
termination_by v => sizeOf v

mutual

/-- Is the value pure JSON data: built only from null, booleans, numbers,
strings, arrays and objects (no `undefined`, no functions)?  Such values
are exactly the JSON-serializable ones of the spec. -/
def pureJson : Val → Bool
  | vundef => false
  | vnull => true
  | vbool _ => true
  | vnum _ => true
  | vstr _ => true
  | varr _ es => pureJsonList es
  | vobj _ fs => pureJsonFields fs
  | vfun _ _ => false

/-- All members of the list are pure JSON data. -/
def pureJsonList : List Val → Bool
  | [] => true
  | v :: vs => pureJson v && pureJsonList vs

/-- All field values of the list are pure JSON data. -/
def pureJsonFields : List (String × Val) → Bool
  | [] => true
  | (_, v) :: fs => pureJson v && pureJsonFields fs

end

mutual

/-- Re-tag every composite node of a value with realm `r`: the identity
of a value materialized by `JSON.parse` running inside realm `r`. -/
def retag (r : Realm) : Val → Val
  | vundef => vundef
  | vnull => vnull
  | vbool b => vbool b
  | vnum n => vnum n
  | vstr s => vstr s
  | varr _ es => varr r (retagList r es)
  | vobj _ fs => vobj r (retagFields r fs)
  | vfun _ n => vfun r n

/-- Re-tag every member of a list of values. -/
def retagList (r : Realm) : List Val → List Val
  | [] => []
  | v :: vs => retag r v :: retagList r vs

/-- Re-tag every field value of an object field list. -/
def retagFields (r : Realm) : List (String × Val) → List (String × Val)
  | [] => []
  | (k, v) :: fs => (k, retag r v) :: retagFields r fs

end

mutual

/-- Is the value owned by realm `r`: every composite node it contains is
tagged `r` and it contains no function values at all (the shape produced
by `JSON.parse` in realm `r`). -/
def ownedData (r : Realm) : Val → Bool
  | vundef => true
  | vnull => true
  | vbool _ => true
  | vnum _ => true
  | vstr _ => true
  | varr o es => decide (o = r) && ownedDataList r es
  | vobj o fs => decide (o = r) && ownedDataFields r fs
  | vfun _ _ => false

/-- All members of the list are `r`-owned data. -/
def ownedDataList (r : Realm) : List Val → Bool
  | [] => true
  | v :: vs => ownedData r v && ownedDataList r vs

/-- All field values of the list are `r`-owned data. -/
def ownedDataFields (r : Realm) : List (String × Val) → Bool
  | [] => true
  | (_, v) :: fs => ownedData r v && ownedDataFields r fs

end

/-- Lower-case hex digit for a value below 16, as produced by the JSON
escape `\u00XX`. -/
def hexDig (n : Nat) : Char :=
  if n < 10 then Char.ofNat (48 + n) else Char.ofNat (87 + n)

/-- JSON string escaping of one character, following the quote algorithm
of `JSON.stringify`: quote and backslash are escaped, the five named
control escapes are used where they exist, any other control character
becomes `\u00XX`, and everything else is emitted verbatim. -/
def escChar (c : Char) : List Char :=
  if c = '"' then ['\\', '"']
  else if c = '\\' then ['\\', '\\']
  else if c.toNat = 8 then ['\\', 'b']
  else if c.toNat = 9 then ['\\', 't']
  else if c.toNat = 10 then ['\\', 'n']
  else if c.toNat = 12 then ['\\', 'f']
  else if c.toNat = 13 then ['\\', 'r']
  else if c.toNat < 32 then
    ['\\', 'u', '0', '0', hexDig (c.toNat / 16), hexDig (c.toNat % 16)]
  else [c]

/-- JSON string escaping of a character sequence. -/
def escStr : List Char → List Char
  | [] => []
  | c :: cs => escChar c ++ escStr cs

/-- A JSON string literal: opening quote, escaped content, closing
quote. -/
def qstr (s : String) : List Char :=
  '"' :: (escStr s.data ++ ['"'])

/-- ASCII decimal digit test. -/
def isDigitCh (c : Char) : Bool :=
  48 ≤ c.toNat && c.toNat ≤ 57

/-- Big-endian decimal digit characters of a positive number; `fuel`
bounds the recursion (the number itself suffices). -/
def natDigitsAux : Nat → Nat → List Char
  | 0, _ => []
  | _ + 1, 0 => []
  | fuel + 1, n => natDigitsAux fuel (n / 10) ++ [Char.ofNat (48 + n % 10)]

/-- Big-endian decimal digit characters of a natural number, as printed
by `JSON.stringify` for whole numbers. -/
def natDigits (n : Nat) : List Char :=
  if n = 0 then ['0'] else natDigitsAux n n

/-- Decimal notation of an integer. -/
def intChars (n : Int) : List Char :=
  if n < 0 then '-' :: natDigits n.natAbs else natDigits n.natAbs

/-- Comma-separated join of printed members. -/
def jSeq : List (List Char) → List Char
  | [] => []
  | [x] => x
  | x :: y :: xs => x ++ (',' :: jSeq (y :: xs))

mutual

/-- Model of `JSON.stringify` (the host serializer, also available inside
the realm): `undefined` and functions produce no output (`none` at top
level, omitted as object fields, `null` as array members); everything
else prints in the canonical compact form.  Numbers in this development
are integers. -/
def jChars : Val → Option (List Char)
  | vundef => none
  | vnull => some ('n' :: 'u' :: 'l' :: 'l' :: [])
  | vbool true => some ('t' :: 'r' :: 'u' :: 'e' :: [])
  | vbool false => some ('f' :: 'a' :: 'l' :: 's' :: 'e' :: [])
  | vnum n => some (intChars n)
  | vstr s => some (qstr s)
  | varr _ es => some ('[' :: (jSeq (jArr es) ++ [']']))
  | vobj _ fs => some ('\x7b' :: (jSeq (jObj fs) ++ ['\x7d']))
  | vfun _ _ => none

/-- Array members: unserializable members print as `null`. -/
def jArr : List Val → List (List Char)
  | [] => []
  | v :: vs => ((jChars v).getD ('n' :: 'u' :: 'l' :: 'l' :: [])) :: jArr vs

/-- Object members: unserializable fields are omitted. -/
def jObj : List (String × Val) → List (List Char)
  | [] => []
  | (k, v) :: fs =>
    match jChars v with
    | some sv => (qstr k ++ (':' :: sv)) :: jObj fs
    | none => jObj fs

end

/-- `JSON.stringify` at the `String` level. -/
def stringifyJson (v : Val) : Option String :=
  (jChars v).map String.mk

/-- Value of a hex digit character, used by the `\uXXXX` string escape. -/
def hexVal (c : Char) : Option Nat :=
  if '0' ≤ c && c ≤ '9' then some (c.toNat - 48)
  else if 'a' ≤ c && c ≤ 'f' then some (c.toNat - 87)
  else if 'A' ≤ c && c ≤ 'F' then some (c.toNat - 55)
  else none

/-- Numeric value of a big-endian run of decimal digit characters. -/
def digitsToNat (ds : List Char) : Nat :=
  Nat.ofDigits 10 ((ds.map (fun c => c.toNat - 48)).reverse)

/-- Parse the body of a JSON string literal (the opening quote already
consumed), returning the decoded characters and the text after the
closing quote.  `fuel` bounds the scan; one unit is spent per decoded
character. -/
def parseStrChars : Nat → List Char → Option (List Char × List Char)
  | 0, _ => none
  | fuel + 1, cs =>
    match cs with
    | [] => none
    | '"' :: rest => some ([], rest)
    | '\\' :: e :: rest =>
      match e with
      | '"' =>
        match parseStrChars fuel rest with
        | some (s, r') => some ('"' :: s, r')
        | none => none
      | '\\' =>
        match parseStrChars fuel rest with
        | some (s, r') => some ('\\' :: s, r')
        | none => none
      | '/' =>
        match parseStrChars fuel rest with
        | some (s, r') => some ('/' :: s, r')
        | none => none
      | 'b' =>
        match parseStrChars fuel rest with
        | some (s, r') => some (Char.ofNat 8 :: s, r')
        | none => none
      | 't' =>
        match parseStrChars fuel rest with
        | some (s, r') => some (Char.ofNat 9 :: s, r')
        | none => none
      | 'n' =>
        match parseStrChars fuel rest with
        | some (s, r') => some (Char.ofNat 10 :: s, r')
        | none => none
      | 'f' =>
        match parseStrChars fuel rest with
        | some (s, r') => some (Char.ofNat 12 :: s, r')
        | none => none
      | 'r' =>
        match parseStrChars fuel rest with
        | some (s, r') => some (Char.ofNat 13 :: s, r')
        | none => none
      | 'u' =>
        match rest with
        | h1 :: h2 :: h3 :: h4 :: rest' =>
          match hexVal h1, hexVal h2, hexVal h3, hexVal h4 with
          | some a, some b, some c, some d =>
            match parseStrChars fuel rest' with
            | some (s, r') =>
              some (Char.ofNat (((a * 16 + b) * 16 + c) * 16 + d) :: s, r')
            | none => none
          | _, _, _, _ => none
        | _ => none
      | _ => none
    | c :: rest =>
      if c.toNat < 32 then none
      else
        match parseStrChars fuel rest with
        | some (s, r') => some (c :: s, r')
        | none => none

mutual

/-- Model of `JSON.parse` running in realm `r` (recursive-descent over
the compact grammar emitted by `jChars`; lax about whitespace and number
edge cases, which the printed form never produces).  Every composite node
it materializes is owned by `r`.  `fuel` bounds the descent. -/
def parseVal (r : Realm) : Nat → List Char → Option (Val × List Char)
  | 0, _ => none
  | fuel + 1, cs =>
    match cs with
    | 'n' :: 'u' :: 'l' :: 'l' :: rest => some (vnull, rest)
    | 't' :: 'r' :: 'u' :: 'e' :: rest => some (vbool true, rest)
    | 'f' :: 'a' :: 'l' :: 's' :: 'e' :: rest => some (vbool false, rest)
    | '"' :: rest =>
      match parseStrChars (fuel + 1) rest with
      | some (s, rest') => some (vstr (String.mk s), rest')
      | none => none
    | '[' :: rest =>
      match rest with
      | ']' :: rest' => some (varr r [], rest')
      | _ =>
        match parseElems r fuel rest with
        | some (es, rest') => some (varr r es, rest')
        | none => none
    | '\x7b' :: rest =>
      match rest with
      | '\x7d' :: rest' => some (vobj r [], rest')
      | _ =>
        match parseFields r fuel rest with
        | some (fs, rest') => some (vobj r fs, rest')
        | none => none
    | '-' :: rest =>
      if (rest.takeWhile isDigitCh).isEmpty then none
      else some (vnum (-(digitsToNat (rest.takeWhile isDigitCh) : Int)),
        rest.dropWhile isDigitCh)
    | c :: rest =>
      if isDigitCh c then
        some (vnum (digitsToNat ((c :: rest).takeWhile isDigitCh)),
          (c :: rest).dropWhile isDigitCh)
      else none
    | [] => none

/-- Parse one or more comma-separated array members up to the closing
bracket. -/
def parseElems (r : Realm) : Nat → List Char → Option (List Val × List Char)
  | 0, _ => none
  | fuel + 1, cs =>
    match parseVal r fuel cs with
    | some (v, rest) =>
      match rest with
      | ']' :: rest' => some ([v], rest')
      | ',' :: rest' =>
        match parseElems r fuel rest' with
        | some (vs, rest'') => some (v :: vs, rest'')
        | none => none
      | _ => none
    | none => none

/-- Parse one or more comma-separated object members up to the closing
brace. -/
def parseFields (r : Realm) : Nat → List Char →
    Option (List (String × Val) × List Char)
  | 0, _ => none
  | fuel + 1, cs =>
    match cs with
    | '"' :: cs' =>
      match parseStrChars (fuel + 1) cs' with
      | some (k, rest) =>
        match rest with
        | ':' :: rest' =>
          match parseVal r fuel rest' with
          | some (v, rest'') =>
            match rest'' with
            | '\x7d' :: rest''' => some ([(String.mk k, v)], rest''')
            | ',' :: rest''' =>
              match parseFields r fuel rest''' with
              | some (fs, r4) => some ((String.mk k, v) :: fs, r4)
              | none => none
            | _ => none
          | none => none
        | _ => none
      | none => none
    | _ => none

end

/-- `JSON.parse` in realm `r` at the `String` level: the whole text must
be consumed. -/
def parseJson (r : Realm) (s : String) : Option Val :=
  match parseVal r (s.length + 1) s.data with
  | some (v, []) => some v
  | _ => none

/-- Reading back a code below the surrogate range through `Char.ofNat`
recovers the code. -/
theorem toNat_ofNat_valid (n : Nat) (h : n < 55296) : (Char.ofNat n).toNat = n := by
  have hv : Nat.isValidChar n := Or.inl h
  simp only [Char.ofNat, hv, dite_true]
  rfl

/-- Reading a hex digit back recovers its value. -/
theorem hexVal_hexDig (n : Nat) (h : n < 16) : hexVal (hexDig n) = some n := by
  interval_cases n <;> decide

/-- Decoding the body of a JSON string literal produced by `escStr`
recovers the original characters. -/
theorem parseStrChars_escStr :
    ∀ (s : List Char) (rest : List Char) (fuel : Nat), s.length < fuel →
      parseStrChars fuel (escStr s ++ '"' :: rest) = some (s, rest) := by
  intro s
  induction s with
  | nil =>
    intro rest fuel h
    match fuel with
    | f + 1 => simp [escStr, parseStrChars]
  | cons c cs ih =>
    intro rest fuel h
    match fuel with
    | f + 1 =>
      have hcs : cs.length < f := by
        simp only [List.length_cons] at h
        omega
      have hrec := ih rest f hcs
      by_cases h1 : c = '"'
      · subst h1
        simp [escStr, escChar, parseStrChars, hrec]
      by_cases h2 : c = '\\'
      · subst h2
        simp [escStr, escChar, parseStrChars, hrec]
      by_cases h3 : c.toNat = 8
      · have hc : Char.ofNat 8 = c := by rw [← h3]; exact Char.ofNat_toNat c
        simp [escStr, escChar, h1, h2, h3, parseStrChars, hrec, hc]
        exact hc
      by_cases h4 : c.toNat = 9
      · have hc : Char.ofNat 9 = c := by rw [← h4]; exact Char.ofNat_toNat c
        simp [escStr, escChar, h1, h2, h3, h4, parseStrChars, hrec, hc]
        exact hc
      by_cases h5 : c.toNat = 10
      · have hc : Char.ofNat 10 = c := by rw [← h5]; exact Char.ofNat_toNat c
        simp [escStr, escChar, h1, h2, h3, h4, h5, parseStrChars, hrec, hc]
        exact hc
      by_cases h6 : c.toNat = 12
      · have hc : Char.ofNat 12 = c := by rw [← h6]; exact Char.ofNat_toNat c
        simp [escStr, escChar, h1, h2, h3, h4, h5, h6, parseStrChars, hrec, hc]
        exact hc
      by_cases h7 : c.toNat = 13
      · have hc : Char.ofNat 13 = c := by rw [← h7]; exact Char.ofNat_toNat c
        simp [escStr, escChar, h1, h2, h3, h4, h5, h6, h7, parseStrChars, hrec, hc]
        exact hc
      by_cases h8 : c.toNat < 32
      · have hhi : c.toNat / 16 < 16 := by omega
        have hlo : c.toNat % 16 < 16 := by omega
        have hc : Char.ofNat (c.toNat / 16 * 16 + c.toNat % 16) = c := by
          have hdm := Nat.div_add_mod c.toNat 16
          have harith : c.toNat / 16 * 16 + c.toNat % 16 = c.toNat := by omega
          rw [harith]
          exact Char.ofNat_toNat c
        have hz : hexVal '0' = some 0 := by decide
        simp [escStr, escChar, h1, h2, h3, h4, h5, h6, h7, h8, parseStrChars,
          hz, hexVal_hexDig _ hhi, hexVal_hexDig _ hlo, hrec, hc]
      · simp [escStr, escChar, h1, h2, h3, h4, h5, h6, h7, h8, parseStrChars, hrec]

/-- The text does not begin with a decimal digit, so a maximal digit run
ends exactly before it. -/
def nextNonDigit : List Char → Prop
  | [] => True
  | c :: _ => isDigitCh c = false

/-- The fueled digit printer agrees with `Nat.digits` whenever the fuel
covers the number. -/
theorem natDigitsAux_eq : ∀ (fuel n : Nat), n ≤ fuel →
    natDigitsAux fuel n =
      (Nat.digits 10 n).reverse.map (fun d => Char.ofNat (48 + d)) := by
  intro fuel
  induction fuel with
  | zero =>
    intro n h
    have : n = 0 := Nat.le_zero.mp h
    subst this
    simp [natDigitsAux]
  | succ fuel ih =>
    intro n h
    cases hn : n with
    | zero => simp [natDigitsAux]
    | succ m =>
      subst hn
      have hdiv : (m + 1) / 10 ≤ fuel := by
        have := Nat.div_lt_self (Nat.succ_pos m) (by norm_num : (1:ℕ) < 10)
        omega
      rw [show natDigitsAux (fuel + 1) (m + 1)
          = natDigitsAux fuel ((m + 1) / 10) ++ [Char.ofNat (48 + (m + 1) % 10)] from rfl]
      rw [ih _ hdiv]
      rw [Nat.digits_def' (by norm_num : (1:ℕ) < 10) (Nat.succ_pos m)]
      simp

/-- Every character printed by `natDigits` is a decimal digit. -/
theorem natDigits_all_digits (n : Nat) : ∀ c ∈ natDigits n, isDigitCh c = true := by
  intro c hc
  unfold natDigits at hc
  by_cases h0 : n = 0
  · simp [h0] at hc
    subst hc
    decide
  · rw [natDigitsAux_eq n n le_rfl] at hc
    simp [h0] at hc
    obtain ⟨d, hd, rfl⟩ := hc
    have hd10 : d < 10 := Nat.digits_lt_base (by norm_num) hd
    have hv : (48 + d) < 55296 := by omega
    simp [isDigitCh, toNat_ofNat_valid _ hv]
    omega

/-- `natDigits` always prints at least one character. -/
theorem natDigits_ne_nil (n : Nat) : natDigits n ≠ [] := by
  unfold natDigits
  by_cases h0 : n = 0
  · simp [h0]
  · rw [natDigitsAux_eq n n le_rfl]
    simp [h0]
    exact Nat.digits_ne_nil_iff_ne_zero.mpr h0

/-- Reading the printed decimal digits back recovers the number. -/
theorem digitsToNat_natDigits (n : Nat) : digitsToNat (natDigits n) = n := by
  by_cases h0 : n = 0
  · subst h0
    decide
  · unfold digitsToNat natDigits
    simp only [h0, if_false]
    rw [natDigitsAux_eq n n le_rfl]
    rw [List.map_map, List.map_congr_left (g := fun d => d) ?hcongr]
    · simp [Nat.ofDigits_digits]
    · intro d hd
      have hd10 : d < 10 := Nat.digits_lt_base (by norm_num) (List.mem_reverse.mp hd)
      have hv : (48 + d) < 55296 := by omega
      simp [Function.comp, toNat_ofNat_valid _ hv]

/-- `takeWhile` splits an all-digit prefix off exactly when the suffix
does not start with a digit. -/
theorem takeWhile_digit_split (ds rest : List Char)
    (hds : ∀ c ∈ ds, isDigitCh c = true) (hrest : nextNonDigit rest) :
    (ds ++ rest).takeWhile isDigitCh = ds ∧
      (ds ++ rest).dropWhile isDigitCh = rest := by
  induction ds with
  | nil =>
    cases rest with
    | nil => simp
    | cons c cs =>
      have : isDigitCh c = false := hrest
      simp [List.takeWhile_cons, List.dropWhile_cons, this]
  | cons d ds ih =>
    have hd : isDigitCh d = true := hds d (by simp)
    have hds' : ∀ c ∈ ds, isDigitCh c = true := fun c hc => hds c (by simp [hc])
    obtain ⟨h1, h2⟩ := ih hds'
    simp [List.takeWhile_cons, List.dropWhile_cons, hd, h1, h2]

/-- Reduction of `parseVal` at an input whose head is a decimal digit:
the number branch fires. -/
theorem parseVal_digit_head (r : Realm) (f : Nat) (c : Char) (cs : List Char)
    (h : isDigitCh c = true) :
    parseVal r (f + 1) (c :: cs) =
      some (vnum (digitsToNat ((c :: cs).takeWhile isDigitCh)),
        (c :: cs).dropWhile isDigitCh) := by
  have hrange : 48 ≤ c.toNat ∧ c.toNat ≤ 57 := by simpa [isDigitCh] using h
  unfold parseVal
  split <;> simp_all [isDigitCh]

/-- Parsing the decimal print of an integer consumes exactly the printed
digits. -/
theorem parseVal_intChars (r : Realm) (n : Int) (f : Nat) (rest : List Char)
    (hrest : nextNonDigit rest) :
    parseVal r (f + 1) (intChars n ++ rest) = some (vnum n, rest) := by
  obtain ⟨hsplit1, hsplit2⟩ :=
    takeWhile_digit_split (natDigits n.natAbs) rest
      (natDigits_all_digits n.natAbs) hrest
  obtain ⟨c, cs, hcons⟩ : ∃ c cs, natDigits n.natAbs = c :: cs := by
    cases hn : natDigits n.natAbs with
    | nil => exact absurd hn (natDigits_ne_nil _)
    | cons c cs => exact ⟨c, cs, rfl⟩
  have hcdig : isDigitCh c = true :=
    natDigits_all_digits n.natAbs c (by rw [hcons]; simp)
  by_cases hneg : n < 0
  · have habs : ((n.natAbs : Int)) = -n := Int.ofNat_natAbs_of_nonpos (le_of_lt hneg)
    have hi : intChars n = '-' :: natDigits n.natAbs := by simp [intChars, hneg]
    rw [hi]
    simp only [List.cons_append, parseVal]
    rw [hsplit1, hsplit2]
    have hne : (natDigits n.natAbs).isEmpty = false := by
      rw [hcons]; rfl
    simp [hne, digitsToNat_natDigits, habs]
  · have habs : ((n.natAbs : Int)) = n := Int.natAbs_of_nonneg (le_of_not_lt hneg)
    have hi : intChars n = natDigits n.natAbs := by simp [intChars, hneg]
    rw [hi, hcons, List.cons_append, parseVal_digit_head r f c (cs ++ rest) hcdig]
    rw [show (c :: (cs ++ rest)) = (c :: cs) ++ rest by simp, ← hcons]
    rw [hsplit1, hsplit2, digitsToNat_natDigits, habs]

/-- Rebuilding a string from its character data is the identity. -/
theorem mk_data_eq (s : String) : String.mk s.data = s := by
  cases s
  rfl

/-- Escaping never shortens a string. -/
theorem escStr_length_le (s : List Char) : s.length ≤ (escStr s).length := by
  induction s with
  | nil => simp [escStr]
  | cons c cs ih =>
    have hc : 1 ≤ (escChar c).length := by
      unfold escChar
      repeat' split
      all_goals simp
    simp only [escStr, List.length_append, List.length_cons]
    omega

/-- Every serializable value prints to a non-empty text that does not
begin with a closing bracket. -/
theorem jChars_head (v : Val) (out : List Char) (h : jChars v = some out) :
    ∃ c cs, out = c :: cs ∧ c ≠ ']' := by
  cases v with
  | vundef => simp [jChars] at h
  | vnull =>
    simp only [jChars, Option.some.injEq] at h
    exact ⟨_, _, h.symm, by decide⟩
  | vbool b =>
    cases b <;> simp only [jChars, Option.some.injEq] at h <;>
      exact ⟨_, _, h.symm, by decide⟩
  | vnum n =>
    simp only [jChars, Option.some.injEq] at h
    subst h
    by_cases hneg : n < 0
    · refine ⟨'-', natDigits n.natAbs, ?_, by decide⟩
      simp [intChars, hneg]
    · obtain ⟨c, cs, hcons⟩ : ∃ c cs, natDigits n.natAbs = c :: cs := by
        cases hn : natDigits n.natAbs with
        | nil => exact absurd hn (natDigits_ne_nil _)
        | cons c cs => exact ⟨c, cs, rfl⟩
      have hcdig : isDigitCh c = true :=
        natDigits_all_digits n.natAbs c (by rw [hcons]; simp)
      have hrange : 48 ≤ c.toNat ∧ c.toNat ≤ 57 := by simpa [isDigitCh] using hcdig
      refine ⟨c, cs, by simp [intChars, hneg, hcons], ?_⟩
      intro hc
      subst hc
      simp at hrange
  | vstr s =>
    simp only [jChars, Option.some.injEq] at h
    exact ⟨_, _, h.symm, by decide⟩
  | varr o es =>
    simp only [jChars, Option.some.injEq] at h
    exact ⟨_, _, h.symm, by decide⟩
  | vobj o fs =>
    simp only [jChars, Option.some.injEq] at h
    exact ⟨_, _, h.symm, by decide⟩
  | vfun o n => simp [jChars] at h

/-- A serializable value always prints. -/
theorem pureJson_jChars (v : Val) (h : pureJson v = true) :
    ∃ out, jChars v = some out := by
  cases v with
  | vundef => simp [pureJson] at h
  | vnull => exact ⟨_, rfl⟩
  | vbool b => cases b <;> exact ⟨_, rfl⟩
  | vnum n => exact ⟨_, rfl⟩
  | vstr s => exact ⟨_, rfl⟩
  | varr o es => exact ⟨_, rfl⟩
  | vobj o fs => exact ⟨_, rfl⟩
  | vfun o n => simp [pureJson] at h

/-- `nextNonDigit` holds at a cons whose head is not a digit. -/
theorem nextNonDigit_cons (c : Char) (cs : List Char) (h : isDigitCh c = false) :
    nextNonDigit (c :: cs) := h

/-- Unfolding `jArr` at a cons. -/
theorem jArr_cons (v : Val) (vs : List Val) :
    jArr (v :: vs) = ((jChars v).getD ('n' :: 'u' :: 'l' :: 'l' :: [])) :: jArr vs := rfl

/-- `jSeq` of a single member. -/
theorem jSeq_one (x : List Char) : jSeq [x] = x := rfl

/-- `jSeq` of two or more members. -/
theorem jSeq_two (x y : List Char) (xs : List (List Char)) :
    jSeq (x :: y :: xs) = x ++ ',' :: jSeq (y :: xs) := rfl

/-- Unfolding `jObj` at a serializable member. -/
theorem jObj_cons_some (k : String) (v : Val) (fs : List (String × Val))
    (out : List Char) (h : jChars v = some out) :
    jObj ((k, v) :: fs) = (qstr k ++ (':' :: out)) :: jObj fs := by
  simp [jObj, h]

/-- Parsing a comma-separated member sequence printed from serializable
array members, given the parsing property of each member. -/
theorem parseElems_jArr (r : Realm) :
    ∀ (es : List Val), pureJsonList es = true →
      (∀ e ∈ es, ∀ out, jChars e = some out →
        ∀ f rest, out.length < f → nextNonDigit rest →
          parseVal r f (out ++ rest) = some (retag r e, rest)) →
      es ≠ [] →
      ∀ f rest, (jSeq (jArr es)).length + 1 < f →
        parseElems r f (jSeq (jArr es) ++ ']' :: rest) =
          some (retagList r es, rest) := by
  intro es
  induction es with
  | nil => intro _ _ hne; exact absurd rfl hne
  | cons e es' ih =>
    intro hpure helem hne f rest hf
    have hpe : pureJson e = true := by
      have := hpure
      simp only [pureJsonList, Bool.and_eq_true] at this
      exact this.1
    have hpes' : pureJsonList es' = true := by
      have := hpure
      simp only [pureJsonList, Bool.and_eq_true] at this
      exact this.2
    obtain ⟨out, hout⟩ := pureJson_jChars e hpe
    obtain ⟨c0, cs0, hc0, _⟩ := jChars_head e out hout
    have hlen_out : 1 ≤ out.length := by rw [hc0]; simp
    cases es' with
    | nil =>
      have hJ : jSeq (jArr [e]) = out := by
        rw [jArr_cons, hout]
        rfl
      rw [hJ] at hf ⊢
      obtain ⟨g, rfl⟩ : ∃ g, f = g + 1 := ⟨f - 1, by omega⟩
      have hrun := helem e (by simp) out hout g (']' :: rest) (by omega)
        (nextNonDigit_cons _ _ (by decide))
      simp only [parseElems, hrun]
      simp [retagList]
    | cons e2 es'' =>
      have hJ : jSeq (jArr (e :: e2 :: es'')) =
          out ++ ',' :: jSeq (jArr (e2 :: es'')) := by
        rw [jArr_cons e, hout]
        rw [jArr_cons e2, jSeq_two, ← jArr_cons e2]
        rfl
      rw [hJ] at hf ⊢
      simp only [List.length_append, List.length_cons] at hf
      obtain ⟨g, rfl⟩ : ∃ g, f = g + 1 := ⟨f - 1, by omega⟩
      have hassoc : (out ++ ',' :: jSeq (jArr (e2 :: es''))) ++ ']' :: rest
          = out ++ ',' :: (jSeq (jArr (e2 :: es'')) ++ ']' :: rest) := by simp
      rw [hassoc]
      have hrun := helem e (by simp) out hout g
        (',' :: (jSeq (jArr (e2 :: es'')) ++ ']' :: rest)) (by omega)
        (nextNonDigit_cons _ _ (by decide))
      simp only [parseElems, hrun]
      have hrec := ih hpes' (fun e' he' => helem e' (by simp [he'])) (by simp)
        g rest (by omega)
      simp only [hrec]
      simp [retagList]

/-- Parsing a comma-separated member sequence printed from serializable
object members, given the parsing property of each member value. -/
theorem parseFields_jObj (r : Realm) :
    ∀ (fs : List (String × Val)), pureJsonFields fs = true →
      (∀ kv ∈ fs, ∀ out, jChars kv.2 = some out →
        ∀ f rest, out.length < f → nextNonDigit rest →
          parseVal r f (out ++ rest) = some (retag r kv.2, rest)) →
      fs ≠ [] →
      ∀ f rest, (jSeq (jObj fs)).length + 1 < f →
        parseFields r f (jSeq (jObj fs) ++ '\x7d' :: rest) =
          some (retagFields r fs, rest) := by
  intro fs
  induction fs with
  | nil => intro _ _ hne; exact absurd rfl hne
  | cons kv fs' ih =>
    obtain ⟨k, v⟩ := kv
    intro hpure helem hne f rest hf
    have hpv : pureJson v = true := by
      have := hpure
      simp only [pureJsonFields, Bool.and_eq_true] at this
      exact this.1
    have hpfs' : pureJsonFields fs' = true := by
      have := hpure
      simp only [pureJsonFields, Bool.and_eq_true] at this
      exact this.2
    obtain ⟨out, hout⟩ := pureJson_jChars v hpv
    obtain ⟨c0, cs0, hc0, _⟩ := jChars_head v out hout
    have hlen_out : 1 ≤ out.length := by rw [hc0]; simp
    have hesc := escStr_length_le k.data
    cases fs' with
    | nil =>
      have hJ : jSeq (jObj [(k, v)]) = qstr k ++ (':' :: out) := by
        rw [jObj_cons_some k v [] out hout]
        rfl
      rw [hJ] at hf ⊢
      simp only [qstr, List.length_append, List.length_cons] at hf
      obtain ⟨g, rfl⟩ : ∃ g, f = g + 1 := ⟨f - 1, by omega⟩
      have hshape : (qstr k ++ (':' :: out)) ++ '\x7d' :: rest
          = '"' :: (escStr k.data ++ '"' :: (':' :: (out ++ '\x7d' :: rest))) := by
        simp [qstr]
      rw [hshape]
      have hkey := parseStrChars_escStr k.data
        (':' :: (out ++ '\x7d' :: rest)) (g + 1) (by omega)
      have hrun := helem (k, v) (by simp) out hout g ('\x7d' :: rest) (by omega)
        (nextNonDigit_cons _ _ (by decide))
      simp only [parseFields, hkey, hrun]
      simp [retagFields, mk_data_eq]
    | cons kv2 fs'' =>
      obtain ⟨k2, v2⟩ := kv2
      have hpv2 : pureJson v2 = true := by
        have := hpfs'
        simp only [pureJsonFields, Bool.and_eq_true] at this
        exact this.1
      obtain ⟨out2, hout2⟩ := pureJson_jChars v2 hpv2
      have hJ : jSeq (jObj ((k, v) :: (k2, v2) :: fs'')) =
          (qstr k ++ (':' :: out)) ++ ',' :: jSeq (jObj ((k2, v2) :: fs'')) := by
        rw [jObj_cons_some k v _ out hout]
        rw [jObj_cons_some k2 v2 _ out2 hout2, jSeq_two,
          ← jObj_cons_some k2 v2 _ out2 hout2]
      rw [hJ] at hf ⊢
      simp only [qstr, List.length_append, List.length_cons] at hf
      obtain ⟨g, rfl⟩ : ∃ g, f = g + 1 := ⟨f - 1, by omega⟩
      have hshape : ((qstr k ++ (':' :: out)) ++ ',' :: jSeq (jObj ((k2, v2) :: fs''))) ++ '\x7d' :: rest
          = '"' :: (escStr k.data ++ '"' :: (':' :: (out ++
              ',' :: (jSeq (jObj ((k2, v2) :: fs'')) ++ '\x7d' :: rest)))) := by
        simp [qstr]
      rw [hshape]
      have hkey := parseStrChars_escStr k.data
        (':' :: (out ++ ',' :: (jSeq (jObj ((k2, v2) :: fs'')) ++ '\x7d' :: rest)))
        (g + 1) (by omega)
      have hrun := helem (k, v) (by simp) out hout g
        (',' :: (jSeq (jObj ((k2, v2) :: fs'')) ++ '\x7d' :: rest)) (by omega)
        (nextNonDigit_cons _ _ (by decide))
      have hrec := ih hpfs' (fun kv' hkv' => helem kv' (by simp [hkv'])) (by simp)
        g rest (by omega)
      simp only [parseFields, hkey, hrun, hrec]
      simp [retagFields, mk_data_eq]

/-- `jSeq` of a non-empty member list begins with the first member. -/
theorem jSeq_cons_exists (x : List Char) (xs : List (List Char)) :
    ∃ t, jSeq (x :: xs) = x ++ t := by
  cases xs with
  | nil => exact ⟨[], by simp [jSeq_one]⟩
  | cons y ys => exact ⟨',' :: jSeq (y :: ys), jSeq_two x y ys⟩

/-- Members of a serializable member list are serializable. -/
theorem pureJsonList_mem (es : List Val) (h : pureJsonList es = true) :
    ∀ e ∈ es, pureJson e = true := by
  induction es with
  | nil => intro e he; simp at he
  | cons e' es' ih =>
    simp only [pureJsonList, Bool.and_eq_true] at h
    intro e he
    rcases List.mem_cons.mp he with rfl | hmem
    · exact h.1
    · exact ih h.2 e hmem

/-- Field values of a serializable field list are serializable. -/
theorem pureJsonFields_mem (fs : List (String × Val)) (h : pureJsonFields fs = true) :
    ∀ kv ∈ fs, pureJson kv.2 = true := by
  induction fs with
  | nil => intro kv hkv; simp at hkv
  | cons kv' fs' ih =>
    obtain ⟨k', v'⟩ := kv'
    simp only [pureJsonFields, Bool.and_eq_true] at h
    intro kv hkv
    rcases List.mem_cons.mp hkv with rfl | hmem
    · exact h.1
    · exact ih h.2 kv hmem

/-- Round trip of the data-injection pipeline: parsing the printed form
of a serializable value inside realm `r` recovers the value with every
node re-tagged to `r`. -/
theorem parseVal_jChars (r : Realm) :
    ∀ v : Val, pureJson v = true → ∀ out, jChars v = some out →
      ∀ f rest, out.length < f → nextNonDigit rest →
        parseVal r f (out ++ rest) = some (retag r v, rest) := by
  intro v
  induction v using Val.inductionOn with
  | hundef => intro h; simp [pureJson] at h
  | hnull =>
    intro _ out hout f rest hf _
    simp only [jChars, Option.some.injEq] at hout
    subst hout
    obtain ⟨g, rfl⟩ : ∃ g, f = g + 1 := ⟨f - 1, by omega⟩
    simp [parseVal, retag]
  | hbool b =>
    intro _ out hout f rest hf _
    cases b <;> simp only [jChars, Option.some.injEq] at hout <;> subst hout <;>
      obtain ⟨g, rfl⟩ : ∃ g, f = g + 1 := ⟨f - 1, by omega⟩ <;>
      simp [parseVal, retag]
  | hnum n =>
    intro _ out hout f rest hf hrest
    simp only [jChars, Option.some.injEq] at hout
    subst hout
    obtain ⟨g, rfl⟩ : ∃ g, f = g + 1 := ⟨f - 1, by omega⟩
    rw [parseVal_intChars r n g rest hrest]
    simp [retag]
  | hstr s =>
    intro _ out hout f rest hf _
    simp only [jChars, Option.some.injEq] at hout
    subst hout
    simp only [qstr, List.length_cons, List.length_append] at hf
    have hesc := escStr_length_le s.data
    obtain ⟨g, rfl⟩ : ∃ g, f = g + 1 := ⟨f - 1, by omega⟩
    have hshape : qstr s ++ rest = '"' :: (escStr s.data ++ '"' :: rest) := by
      simp [qstr]
    rw [hshape]
    have hkey := parseStrChars_escStr s.data rest (g + 1) (by omega)
    simp only [parseVal, hkey]
    simp [retag, mk_data_eq]
  | harr o es ihes =>
    intro hpure out hout f rest hf _
    have hples : pureJsonList es = true := by
      simpa [pureJson] using hpure
    simp only [jChars, Option.some.injEq] at hout
    subst hout
    cases es with
    | nil =>
      simp only [List.length_cons, List.length_append] at hf
      obtain ⟨g, rfl⟩ : ∃ g, f = g + 1 := ⟨f - 1, by omega⟩
      have hshape : ('[' :: (jSeq (jArr ([] : List Val)) ++ [']'])) ++ rest
          = '[' :: ']' :: rest := by
        simp [jArr, jSeq]
      rw [hshape]
      simp [parseVal, retag, retagList]
    | cons e1 es' =>
      have hpe1 : pureJson e1 = true := pureJsonList_mem _ hples e1 (by simp)
      obtain ⟨out1, hout1⟩ := pureJson_jChars e1 hpe1
      obtain ⟨c1, cs1, hc1, hc1ne⟩ := jChars_head e1 out1 hout1
      obtain ⟨t, ht⟩ := jSeq_cons_exists ((jChars e1).getD ('n' :: 'u' :: 'l' :: 'l' :: []))
        (jArr es')
      have hbody : jSeq (jArr (e1 :: es')) = c1 :: (cs1 ++ t) := by
        rw [jArr_cons, ht, hout1]
        simp [hc1]
      simp only [List.length_cons, List.length_append] at hf
      obtain ⟨g, rfl⟩ : ∃ g, f = g + 1 := ⟨f - 1, by omega⟩
      have hshape : ('[' :: (jSeq (jArr (e1 :: es')) ++ [']'])) ++ rest
          = '[' :: (jSeq (jArr (e1 :: es')) ++ ']' :: rest) := by
        simp
      rw [hshape, hbody]
      have helems := parseElems_jArr r (e1 :: es') hples
        (fun e he out' hout' f' rest' hf' hrest' =>
          ihes e he (pureJsonList_mem _ hples e he) out' hout' f' rest' hf' hrest')
        (by simp) g rest ?hfuel
      case hfuel =>
        rw [hbody]
        simp only [List.length_cons, List.length_append]
        rw [hbody] at hf
        simp only [List.length_cons, List.length_append] at hf
        omega
      rw [hbody] at helems
      simp only [parseVal, hc1ne, helems]
      simp only [retag]
      split <;> simp_all
  | hobj o fs ihfs =>
    intro hpure out hout f rest hf _
    have hpfs : pureJsonFields fs = true := by
      simpa [pureJson] using hpure
    simp only [jChars, Option.some.injEq] at hout
    subst hout
    cases fs with
    | nil =>
      simp only [List.length_cons, List.length_append] at hf
      obtain ⟨g, rfl⟩ : ∃ g, f = g + 1 := ⟨f - 1, by omega⟩
      have hshape : ('\x7b' :: (jSeq (jObj ([] : List (String × Val))) ++ ['\x7d'])) ++ rest
          = '\x7b' :: '\x7d' :: rest := by
        simp [jObj, jSeq]
      rw [hshape]
      simp [parseVal, retag, retagFields]
    | cons kv1 fs' =>
      obtain ⟨k1, v1⟩ := kv1
      have hpv1 : pureJson v1 = true := pureJsonFields_mem _ hpfs (k1, v1) (by simp)
      obtain ⟨out1, hout1⟩ := pureJson_jChars v1 hpv1
      obtain ⟨t, ht⟩ := jSeq_cons_exists (qstr k1 ++ (':' :: out1)) (jObj fs')
      have hbody : jSeq (jObj ((k1, v1) :: fs')) =
          '"' :: ((escStr k1.data ++ ['"']) ++ (':' :: out1) ++ t) := by
        rw [jObj_cons_some k1 v1 _ out1 hout1, ht]
        simp [qstr]
      simp only [List.length_cons, List.length_append] at hf
      obtain ⟨g, rfl⟩ : ∃ g, f = g + 1 := ⟨f - 1, by omega⟩
      have hshape : ('\x7b' :: (jSeq (jObj ((k1, v1) :: fs')) ++ ['\x7d'])) ++ rest
          = '\x7b' :: (jSeq (jObj ((k1, v1) :: fs')) ++ '\x7d' :: rest) := by
        simp
      rw [hshape, hbody]
      have hfields := parseFields_jObj r ((k1, v1) :: fs') hpfs
        (fun kv hkv out' hout' f' rest' hf' hrest' =>
          ihfs kv hkv (pureJsonFields_mem _ hpfs kv hkv) out' hout' f' rest' hf' hrest')
        (by simp) g rest ?hfuel
      case hfuel =>
        rw [hbody]
        simp only [List.length_cons, List.length_append]
        rw [hbody] at hf
        simp only [List.length_cons, List.length_append] at hf
        omega
      rw [hbody] at hfields
      simp only [parseVal, hfields]
      simp [retag]
  | hfun o n => intro h; simp [pureJson] at h

/-- String-level round trip: serializing a serializable value and
parsing the text inside realm `r` yields the value re-tagged to `r`. -/
theorem parseJson_stringifyJson (r : Realm) (v : Val) (h : pureJson v = true) :
    ∃ s, stringifyJson v = some s ∧ parseJson r s = some (retag r v) := by
  obtain ⟨out, hout⟩ := pureJson_jChars v h
  refine ⟨String.mk out, by simp [stringifyJson, hout], ?_⟩
  have hparse := parseVal_jChars r v h out hout (out.length + 1) []
    (by omega) (by simp [nextNonDigit])
  simp only [List.append_nil] at hparse
  simp [parseJson, hparse]

/-- Everything `JSON.parse` materializes inside realm `r` is `r`-owned
data: composite nodes tagged `r` and no function values anywhere. -/
theorem parse_owned (r : Realm) : ∀ f : Nat,
    (∀ cs v rest, parseVal r f cs = some (v, rest) → ownedData r v = true) ∧
    (∀ cs es rest, parseElems r f cs = some (es, rest) → ownedDataList r es = true) ∧
    (∀ cs fs rest, parseFields r f cs = some (fs, rest) →
      ownedDataFields r fs = true) := by
  intro f
  induction f with
  | zero =>
    refine ⟨?_, ?_, ?_⟩ <;> intro cs x rest h <;>
      simp [parseVal, parseElems, parseFields] at h
  | succ f ih =>
    obtain ⟨ihV, ihE, ihF⟩ := ih
    refine ⟨?_, ?_, ?_⟩
    · intro cs v rest h
      unfold parseVal at h
      repeat' split at h
      all_goals (first
        | (simp only [Option.some.injEq, Prod.mk.injEq] at h;
           obtain ⟨h1, h2⟩ := h;
           subst h1;
           subst h2;
           simp_all [ownedData, ownedDataList, ownedDataFields])
        | simp at h)
      all_goals (try simp only [ownedDataList, ownedDataFields, Bool.and_true,
        Bool.and_eq_true])
      all_goals (try constructor)
      all_goals (first
        | exact ihV _ _ _ (by assumption)
        | exact ihE _ _ _ (by assumption)
        | exact ihF _ _ _ (by assumption)
        | rfl)
    · intro cs es rest h
      unfold parseElems at h
      repeat' split at h
      all_goals (first
        | (simp only [Option.some.injEq, Prod.mk.injEq] at h;
           obtain ⟨h1, h2⟩ := h;
           subst h1;
           subst h2;
           simp_all [ownedDataList])
        | simp at h)
      all_goals (try simp only [ownedDataList, ownedDataFields, Bool.and_true,
        Bool.and_eq_true])
      all_goals (try constructor)
      all_goals (first
        | exact ihV _ _ _ (by assumption)
        | exact ihE _ _ _ (by assumption)
        | exact ihF _ _ _ (by assumption)
        | rfl)
    · intro cs fs rest h
      unfold parseFields at h
      repeat' split at h
      all_goals (first
        | (simp only [Option.some.injEq, Prod.mk.injEq] at h;
           obtain ⟨h1, h2⟩ := h;
           subst h1;
           subst h2;
           simp_all [ownedDataFields])
        | simp at h)
      all_goals (try simp only [ownedDataList, ownedDataFields, Bool.and_true,
        Bool.and_eq_true])
      all_goals (try constructor)
      all_goals (first
        | exact ihV _ _ _ (by assumption)
        | exact ihE _ _ _ (by assumption)
        | exact ihF _ _ _ (by assumption)
        | rfl)

/-- Is the value `undefined`? -/
def Val.isUndef : Val → Bool
  | vundef => true
  | _ => false

/-- Primitive literals expressible in user source text: a script can
write down numbers, strings, booleans, `null` and `undefined`, but no
source-level literal denotes a host object or a host function. -/
inductive Prim where
  | pundef
  | pnull
  | pbool (b : Bool)
  | pnum (n : Int)
  | pstr (s : String)

/-- The runtime value of a literal. -/
def Prim.toVal : Prim → Val
  | .pundef => vundef
  | .pnull => vnull
  | .pbool b => vbool b
  | .pnum n => vnum n
  | .pstr s => vstr s

/-- Expressions of the modelled script fragment. -/
inductive Expr where
  | lit (p : Prim)
  | ident (x : String)
  | member (e : Expr) (k : String)
  | indexE (e : Expr) (k : Expr)
  | add (a b : Expr)
  | strictEq (a b : Expr)

/-- Statements of the modelled script fragment. -/
inductive Stmt where
  | skip
  | seq (a b : Stmt)
  | varDecl (x : String) (e : Option Expr)
  | assign (x : String) (e : Expr)
  | exprStmt (e : Expr)
  | ret (e : Option Expr)
  | throwStmt (e : Expr)
  | whileStmt (c : Expr) (b : Stmt)

/-- A scope: bindings visible to the running script (the context
globals together with function-local `var` bindings). -/
abbrev Env := List (String × Val)

/-- Set a binding, updating an existing one in place or appending. -/
def envSet (env : Env) (x : String) (v : Val) : Env :=
  match env with
  | [] => [(x, v)]
  | (y, w) :: rest => if y = x then (y, v) :: rest else (y, w) :: envSet rest x v

/-- Abnormal outcomes of sandboxed evaluation: a thrown value, or the
hard `runInContext` timeout interrupt. -/
inductive Exc where
  | thrownV (v : Val)
  | timeout

mutual

/-- JS `String(v)` on the modelled fragment (arrays join their members
with commas; plain objects print as `[object Object]`). -/
def jsToString : Val → String
  | vundef => "undefined"
  | vnull => "null"
  | vbool b => if b then "true" else "false"
  | vnum n => String.mk (intChars n)
  | vstr s => s
  | varr _ es => String.intercalate "," (jsToStringList es)
  | vobj _ _ => "[object Object]"
  | vfun _ nm => "function " ++ nm ++ "() \x7b [native code] \x7d"

/-- Member-wise stringification of an array. -/
def jsToStringList : List Val → List String
  | [] => []
  | v :: vs => jsToString v :: jsToStringList vs

end

/-- JS truthiness on the modelled fragment. -/
def truthy : Val → Bool
  | vundef => false
  | vnull => false
  | vbool b => b
  | vnum n => decide (n ≠ 0)
  | vstr s => decide (s ≠ "")
  | varr _ _ => true
  | vobj _ _ => true
  | vfun _ _ => true

/-- Reflective members supplied by an object's prototype chain beyond
its own properties.  Following V8 realm semantics, these belong to the
realm that owns the object: `obj.constructor` is the `Object` function
of the realm in which `obj` was created, and `obj.__proto__` is that
realm's `Object.prototype`. -/
def protoMember (owner : Realm) (k : String) : Val :=
  if k = "constructor" then vfun owner "Object"
  else if k = "__proto__" then vobj owner [("constructor", vfun owner "Object")]
  else vundef

/-- Reflective members of a function value: its `constructor` is the
owning realm's `Function`, and its `prototype` is an object of the same
realm. -/
def funMember (owner : Realm) (nm k : String) : Val :=
  if k = "constructor" then vfun owner "Function"
  else if k = "prototype" then vobj owner [("constructor", vfun owner nm)]
  else if k = "call" then vfun owner "call"
  else if k = "apply" then vfun owner "apply"
  else if k = "bind" then vfun owner "bind"
  else vundef

/-- Property access `v.k` evaluated by code running in realm `r`:
own properties first, then the prototype chain of the realm owning `v`;
primitive receivers are boxed by the evaluating realm `r`; reading a
property of `undefined`/`null` throws a `TypeError`. -/
def accessIn (r : Realm) (v : Val) (k : String) : Except Exc Val :=
  match v with
  | vundef => .error (.thrownV (vstr
      ("Cannot read properties of undefined (reading '" ++ k ++ "')")))
  | vnull => .error (.thrownV (vstr
      ("Cannot read properties of null (reading '" ++ k ++ "')")))
  | vobj o fs =>
    match fs.lookup k with
    | some w => .ok w
    | none => .ok (protoMember o k)
  | varr o es =>
    if k = "length" then .ok (vnum es.length)
    else .ok (protoMember o k)
  | vfun o nm => .ok (funMember o nm k)
  | _ => .ok (protoMember r k)

/-- Computed access `v[kv]`: numeric in-range indices of arrays read the
member; everything else coerces the key to a string and becomes a
property access. -/
def indexAccess (r : Realm) (v : Val) (kv : Val) : Except Exc Val :=
  match v, kv with
  | varr _ es, vnum i =>
    if 0 ≤ i ∧ i < (es.length : Int) then .ok (es.getD i.toNat vundef)
    else accessIn r v (jsToString kv)
  | _, _ => accessIn r v (jsToString kv)

/-- JS `+` on the modelled fragment: numeric addition and string
concatenation; operand combinations outside the fragment (which involve
`ToPrimitive` coercions the model does not track) are modelled as a
thrown `TypeError`. -/
def jsAdd : Val → Val → Except Exc Val
  | vnum a, vnum b => .ok (vnum (a + b))
  | vstr a, b => .ok (vstr (a ++ jsToString b))
  | a, vstr b => .ok (vstr (jsToString a ++ b))
  | _, _ => .error (.thrownV (vstr "unsupported operands in modelled fragment"))

/-- JS `===` on the modelled fragment: primitives compare by type and
value; comparisons where both sides are composite depend on reference
identity, which the model does not track, and are modelled as `false`
(exact whenever at most one side is composite). -/
def strictEqVal : Val → Val → Bool
  | vundef, vundef => true
  | vnull, vnull => true
  | vbool a, vbool b => a == b
  | vnum a, vnum b => a == b
  | vstr a, vstr b => a == b
  | _, _ => false

/-- Evaluation of an expression by code running in realm `r` under
scope `env`.  An unresolvable identifier throws a `ReferenceError`. -/
def evalExpr (r : Realm) (env : Env) : Expr → Except Exc Val
  | .lit p => .ok p.toVal
  | .ident x =>
    match env.lookup x with
    | some v => .ok v
    | none => .error (.thrownV (vstr (x ++ " is not defined")))
  | .member e k => do
      let v ← evalExpr r env e
      accessIn r v k
  | .indexE e ke => do
      let v ← evalExpr r env e
      let kv ← evalExpr r env ke
      indexAccess r v kv
  | .add a b => do
      let va ← evalExpr r env a
      let vb ← evalExpr r env b
      jsAdd va vb
  | .strictEq a b => do
      let va ← evalExpr r env a
      let vb ← evalExpr r env b
      .ok (vbool (strictEqVal va vb))

/-- Fuel-bounded big-step evaluation of a statement by code running in
realm `r`: the result is `none` (fell through) or `some v` (a `return`
executed), together with the final scope.  Each loop iteration consumes
one unit of fuel; exhaustion models the hard `runInContext` timeout
interrupt. -/
def evalStmt (r : Realm) : Nat → Env → Stmt → Except Exc (Option Val × Env)
  | 0, _, _ => .error .timeout
  | _ + 1, env, .skip => .ok (none, env)
  | fuel + 1, env, .seq a b => do
      let (ra, env') ← evalStmt r fuel env a
      match ra with
      | some v => .ok (some v, env')
      | none => evalStmt r fuel env' b
  | _ + 1, env, .varDecl x oe =>
      match oe with
      | none => .ok (none, envSet env x vundef)
      | some e => do
          let v ← evalExpr r env e
          .ok (none, envSet env x v)
  | _ + 1, env, .assign x e => do
      let v ← evalExpr r env e
      .ok (none, envSet env x v)
  | _ + 1, env, .exprStmt e => do
      let _ ← evalExpr r env e
      .ok (none, env)
  | _ + 1, env, .ret oe =>
      match oe with
      | none => .ok (some vundef, env)
      | some e => do
          let v ← evalExpr r env e
          .ok (some v, env)
  | _ + 1, env, .throwStmt e => do
      let v ← evalExpr r env e
      .error (.thrownV v)
  | fuel + 1, env, .whileStmt c b => do
      let cv ← evalExpr r env c
      if truthy cv then do
        let (rb, env') ← evalStmt r fuel env b
        match rb with
        | some v => .ok (some v, env')
        | none => evalStmt r fuel env' (.whileStmt c b)
      else .ok (none, env)

/-- The structured result type (`ScriptResult`, source lines 4–9).
The field `vars` models the source's `variables` field (the name
`variables` is reserved in the proof language); it holds an arbitrary
runtime value because the template wrapper returns whatever `__vars`
holds — normally the accumulator object, but a user-level `return`
short-circuits it. -/
structure ScriptResult where
  success : Bool
  value : Option Val := none
  vars : Option Val := none
  error : Option String := none

/-- The two execution modes of `execute`. -/
inductive Mode where
  | value
  | template
deriving DecidableEq, Repr

/-- A user script: the raw source text the engine validates and scans,
together with its parse into the modelled fragment.
`ast = Except.error m` models a text whose compilation by
`new vm.Script` throws a `SyntaxError` with message `m`. -/
structure UserScript where
  src : String
  ast : Except String Stmt

/-- Failure classes of the engine (spec section 7 taxonomy). -/
inductive FailClass where
  | validation
  | serialization
  | compileFailed
  | runtimeThrew
  | timedOut
deriving DecidableEq, Repr

/-- Engine-side effects observable across one `execute` call: how many
contexts were created and how many `runInContext` calls happened, and
which failure class (if any) ended the call. -/
structure Trace where
  realmsBuilt : Nat := 0
  scriptRuns : Nat := 0
  failClass : Option FailClass := none

/-- Modelled from the platform: after `vm.createContext` (source line
58), V8 populates the fresh context with its own isolated builtins whose
prototype chains lead to the context's realm, not the host's (source
comment lines 53–56).  The model carries a representative set, every
binding owned by `guest`. -/
def baseContext : Env :=
  [("Math", vobj .guest []),
   ("JSON", vobj .guest
     [("parse", vfun .guest "parse"), ("stringify", vfun .guest "stringify")]),
   ("parseInt", vfun .guest "parseInt"),
   ("parseFloat", vfun .guest "parseFloat"),
   ("Object", vfun .guest "Object"),
   ("Function", vfun .guest "Function"),
   ("eval", vfun .guest "eval"),
   ("WeakRef", vfun .guest "WeakRef"),
   ("FinalizationRegistry", vfun .guest "FinalizationRegistry"),
   ("Proxy", vfun .guest "Proxy"),
   ("Reflect", vobj .guest []),
   ("Symbol", vfun .guest "Symbol")]

/-- The globals overwritten with `undefined` (source lines 61–69). -/
def scrubbedNames : List String :=
  ["Function", "eval", "constructor", "__proto__", "WeakRef",
   "FinalizationRegistry", "Proxy", "Reflect", "Symbol"]

/-- Source lines 61–69: remove dangerous VM globals by binding them to
`undefined`. -/
def scrubContext (env : Env) : Env :=
  scrubbedNames.foldl (fun e nm => envSet e nm vundef) env

/-- `data ?? null` (source line 75). -/
def nullishData : Val → Val
  | vundef => vnull
  | vnull => vnull
  | v => v

/-- Message of the `SyntaxError` thrown inside the realm when the init
script reads `JSON.parse(undefined)` because `JSON.stringify` produced
no string for the data. -/
def jsonParseFailMsg : String :=
  "Unexpected token u in JSON at position 0"

/-- Source lines 57–79: create the fresh context, scrub the dangerous
globals, serialize the data on the host side (`JSON.stringify(data ??
null)`), embed the text as a literal in the init script and re-parse it
inside the realm, binding the result to `$`.  The faithfulness of the
literal embedding is the string round trip `parseStrChars_escStr`. -/
def buildContext (data : Val) : Except (String × FailClass) Env :=
  let ctx0 := scrubContext baseContext
  match stringifyJson (nullishData data) with
  | none => .error (jsonParseFailMsg, .serialization)
  | some dataJson =>
    match parseJson .guest dataJson with
    | some dollar => .ok (envSet ctx0 "$" dollar)
    | none => .error ("Unexpected token in JSON", .runtimeThrew)

/-- `error instanceof Error ? error.message : String(error)` (source
lines 87, 125, 158) for values thrown by the modelled fragment, none of
which is an `Error` instance. -/
def thrownMessage : Val → String := jsToString

/-- Message of the `ERR_SCRIPT_EXECUTION_TIMEOUT` error thrown by
`runInContext` when the script exceeds its `timeout` option. -/
def timedOutMsg : String :=
  "Script execution timed out after " ++ toString TIMEOUT_MS ++ "ms"

/-- `executeValueMode` (source lines 116–128): compile the IIFE-wrapped
user code and run it under the timeout; the wrapping is modelled by
taking the statement's return value, `undefined` when no `return`
executed. -/
def executeValueMode (ctx : Env) (script : UserScript) :
    ScriptResult × Option FailClass :=
  match script.ast with
  | .error m => ({ success := false, error := some m }, some .compileFailed)
  | .ok p =>
    match evalStmt .guest TIMEOUT_MS ctx p with
    | .ok (res, _) => ({ success := true, value := some (res.getD vundef) }, none)
    | .error (.thrownV v) =>
      ({ success := false, error := some (thrownMessage v) }, some .runtimeThrew)
    | .error .timeout =>
      ({ success := false, error := some timedOutMsg }, some .timedOut)

/-- The generated collection code (source lines 138–140): for each
extracted name whose binding is defined at the end of the user script,
record its final value. -/
def collectVars (names : List String) (env : Env) : List (String × Val) :=
  names.filterMap (fun nm =>
    match env.lookup nm with
    | some v => if v.isUndef then none else some (nm, v)
    | none => none)

/-- Setting an object property: an existing key is updated in place, a
new key appended (JS own-property order). -/
def objSet (fs : List (String × Val)) (k : String) (v : Val) :
    List (String × Val) :=
  match fs with
  | [] => [(k, v)]
  | (k', w) :: rest => if k' = k then (k', v) :: rest else (k', w) :: objSet rest k v

/-- Effect of running the collection code against the final scope: the
collected bindings are assigned into whatever `__vars` holds; property
assignment on a non-object is silently ignored (sloppy mode). -/
def collectInto (vars : Val) (names : List String) (env : Env) : Val :=
  match vars with
  | vobj o fs =>
    vobj o ((collectVars names env).foldl (fun acc kv => objSet acc kv.1 kv.2) fs)
  | v => v

/-- `executeTemplateMode` (source lines 133–161): extract the declared
names from the raw text, run the wrapper (which declares `__vars`, runs
the user code, runs the collection code and returns `__vars`), and
report the returned mapping.  A user-level `return` short-circuits the
wrapper before collection. -/
def executeTemplateMode (ctx : Env) (script : UserScript) :
    ScriptResult × Option FailClass :=
  let names := extractVariableNames script.src
  match script.ast with
  | .error m => ({ success := false, error := some m }, some .compileFailed)
  | .ok p =>
    match evalStmt .guest TIMEOUT_MS (envSet ctx "__vars" (vobj .guest [])) p with
    | .ok (res, env') =>
      match res with
      | some v => ({ success := true, vars := some v }, none)
      | none =>
        ({ success := true,
           vars := some (collectInto ((env'.lookup "__vars").getD vundef)
             names env') }, none)
    | .error (.thrownV v) =>
      ({ success := false, error := some (thrownMessage v) }, some .runtimeThrew)
    | .error .timeout =>
      ({ success := false, error := some timedOutMsg }, some .timedOut)

/-- `ScriptExecutorService.execute` (source lines 44–91), instrumented
with the trace.  The outer try/catch is modelled by the error branches:
every internal failure becomes a `success := false` result carrying the
thrown message. -/
def executeTr (script : UserScript) (data : Val) (mode : Mode) :
    ScriptResult × Trace :=
  match validateScript script.src with
  | .error m =>
    ({ success := false, error := some m },
     { realmsBuilt := 0, scriptRuns := 0, failClass := some .validation })
  | .ok _ =>
    match buildContext data with
    | .error (m, cls) =>
      ({ success := false, error := some m },
       { realmsBuilt := 1, scriptRuns := 1, failClass := some cls })
    | .ok ctx =>
      let (res, cls) :=
        match mode with
        | .value => executeValueMode ctx script
        | .template => executeTemplateMode ctx script
      (res,
       { realmsBuilt := 1,
         scriptRuns := if cls = some FailClass.compileFailed then 1 else 2,
         failClass := cls })

/-- `execute` as seen by callers: the structured result alone. -/
def execute (script : UserScript) (data : Val) (mode : Mode) : ScriptResult :=
  (executeTr script data mode).1

/-- Substring scan: does `t` occur contiguously in the text? -/
def containsAt (t : List Char) : List Char → Bool
  | [] => matchesAt t []
  | c :: cs => matchesAt t (c :: cs) || containsAt t cs

/-- Does `s` contain `sub` as a contiguous substring? -/
def strContains (s sub : String) : Bool :=
  containsAt sub.data s.data

/-- A token matches at the head of itself followed by anything. -/
theorem matchesAt_append_self (t rest : List Char) :
    matchesAt t (t ++ rest) = true := by
  induction t with
  | nil => rfl
  | cons c cs ih => simp [matchesAt, ih]

/-- The empty token occurs in any text. -/
theorem containsAt_nil_tok (cs : List Char) : containsAt [] cs = true := by
  cases cs <;> simp [containsAt, matchesAt]

/-- A token is found anywhere it occurs. -/
theorem containsAt_append (t pre rest : List Char) :
    containsAt t (pre ++ t ++ rest) = true := by
  induction pre with
  | nil =>
    cases ht : t with
    | nil => simp [containsAt_nil_tok]
    | cons c cs =>
      have hm := matchesAt_append_self t rest
      rw [ht] at hm
      simp only [List.nil_append, ht, List.cons_append, containsAt]
      rw [List.cons_append] at hm
      simp [hm]
  | cons c cs ih =>
    simp only [List.cons_append, containsAt, Bool.or_eq_true]
    right
    exact ih

/-- Whole-word occurrence, stated declaratively: the token appears with
a non-word character (or the text edge) on each side. -/
def WholeWordOccurs (tok code : String) : Prop :=
  ∃ pre post, code.data = pre ++ tok.data ++ post ∧
    (∀ p, pre.getLast? = some p → isWordChar p = false) ∧
    (∀ c, post.head? = some c → isWordChar c = false)

/-- `matchesAt` is exactly prefix decomposition. -/
theorem matchesAt_iff (t cs : List Char) :
    matchesAt t cs = true ↔ ∃ post, cs = t ++ post := by
  induction t generalizing cs with
  | nil => simp [matchesAt]
  | cons a ts ih =>
    cases cs with
    | nil =>
      simp [matchesAt]
    | cons c cs' =>
      simp only [matchesAt, Bool.and_eq_true, decide_eq_true_eq, ih,
        List.cons_append, List.cons.injEq]
      constructor
      · rintro ⟨rfl, post, rfl⟩
        exact ⟨post, rfl, rfl⟩
      · rintro ⟨post, rfl, rfl⟩
        exact ⟨rfl, post, rfl⟩

/-- The left-boundary test carried by the scan, in `Prop` form. -/
def prevOK : Option Char → Prop
  | none => True
  | some p => isWordChar p = false

/-- `tailBoundary` spelled over `head?`. -/
theorem tailBoundary_iff (cs : List Char) :
    tailBoundary cs = true ↔ ∀ c, cs.head? = some c → isWordChar c = false := by
  cases cs <;> simp [tailBoundary]

/-- The scan of `wordOccursAux` finds exactly the boundary-flanked
occurrences, relative to the carried previous character. -/
theorem wordOccursAux_iff (t : List Char) (ht : t ≠ []) :
    ∀ (cs : List Char) (prev : Option Char),
      wordOccursAux t prev cs = true ↔
        ∃ pre post, cs = pre ++ t ++ post ∧
          (match pre.getLast? with
           | some p => isWordChar p = false
           | none => prevOK prev) ∧
          (∀ c, post.head? = some c → isWordChar c = false) := by
  intro cs
  induction cs with
  | nil =>
    intro prev
    simp only [wordOccursAux, Bool.false_eq_true, false_iff]
    rintro ⟨pre, post, habs, -, -⟩
    cases t with
    | nil => exact ht rfl
    | cons a ts =>
      have := congrArg List.length habs
      simp at this
      omega
  | cons c cs' ih =>
    intro prev
    simp only [wordOccursAux, Bool.or_eq_true, Bool.and_eq_true]
    constructor
    · rintro (⟨⟨hprev, hmatch⟩, hbound⟩ | htail)
      · obtain ⟨post, hpost⟩ := (matchesAt_iff t (c :: cs')).mp hmatch
        refine ⟨[], post, by simpa using hpost, ?_, ?_⟩
        · simp only [List.getLast?_nil]
          cases prev with
          | none => exact trivial
          | some p => simpa [prevOK] using hprev
        · intro c' hc'
          have hdrop : List.drop t.length (c :: cs') = post := by
            rw [hpost, List.drop_left]
          rw [hdrop] at hbound
          exact (tailBoundary_iff post).mp hbound c' hc'
      · obtain ⟨pre, post, heq, hleft, hright⟩ := (ih (some c)).mp htail
        refine ⟨c :: pre, post, by simp [heq], ?_, hright⟩
        cases hpre : pre with
        | nil =>
          subst hpre
          simp only [List.getLast?_singleton]
          simp only [List.getLast?_nil] at hleft
          exact hleft
        | cons p pre' =>
          rw [List.getLast?_cons_cons]
          rw [hpre] at hleft
          exact hleft
    · rintro ⟨pre, post, heq, hleft, hright⟩
      cases pre with
      | nil =>
        left
        simp only [List.nil_append] at heq
        refine ⟨⟨?_, ?_⟩, ?_⟩
        · simp only [List.getLast?_nil] at hleft
          cases prev with
          | none => rfl
          | some p => simpa [prevOK] using hleft
        · exact (matchesAt_iff t (c :: cs')).mpr ⟨post, heq⟩
        · have hdrop : List.drop t.length (c :: cs') = post := by
            rw [heq, List.drop_left]
          rw [hdrop]
          exact (tailBoundary_iff post).mpr hright
      | cons p pre' =>
        right
        simp only [List.cons_append, List.cons.injEq] at heq
        obtain ⟨rfl, heq'⟩ := heq
        refine (ih (some c)).mpr ⟨pre', post, heq', ?_, hright⟩
        cases hpre' : pre' with
        | nil =>
          subst hpre'
          simp only [List.getLast?_nil]
          simp only [List.getLast?_singleton] at hleft
          exact hleft
        | cons q pre'' =>
          rw [hpre'] at hleft
          rw [List.getLast?_cons_cons] at hleft
          exact hleft

/-- The source's word-boundary regex test finds exactly the whole-word
occurrences. -/
theorem wordTest_iff (tok code : String) (ht : tok.data ≠ []) :
    wordTest tok code = true ↔ WholeWordOccurs tok code := by
  unfold wordTest WholeWordOccurs
  rw [wordOccursAux_iff tok.data ht code.data none]
  constructor
  · rintro ⟨pre, post, heq, hleft, hright⟩
    refine ⟨pre, post, heq, ?_, hright⟩
    intro p hp
    rw [hp] at hleft
    exact hleft
  · rintro ⟨pre, post, heq, hleft, hright⟩
    refine ⟨pre, post, heq, ?_, hright⟩
    cases hp : pre.getLast? with
    | none => exact trivial
    | some p => exact hleft p hp

mutual

/-- Erase the realm tags, leaving the structural shape of a value
(tags canonicalized to `host`): two values are structurally equal iff
their `strip`s agree. -/
def strip : Val → Val
  | vundef => vundef
  | vnull => vnull
  | vbool b => vbool b
  | vnum n => vnum n
  | vstr s => vstr s
  | varr _ es => varr .host (stripList es)
  | vobj _ fs => vobj .host (stripFields fs)
  | vfun _ nm => vfun .host nm

/-- `strip` over array members. -/
def stripList : List Val → List Val
  | [] => []
  | v :: vs => strip v :: stripList vs

/-- `strip` over object fields. -/
def stripFields : List (String × Val) → List (String × Val)
  | [] => []
  | (k, v) :: fs => (k, strip v) :: stripFields fs

end

/-- Re-tagging does not change the structural shape. -/
theorem strip_retag (r : Realm) : ∀ v, strip (retag r v) = strip v := by
  intro v
  induction v using Val.inductionOn with
  | hundef => rfl
  | hnull => rfl
  | hbool b => rfl
  | hnum n => rfl
  | hstr s => rfl
  | harr o es ih =>
    simp only [retag, strip, Val.varr.injEq, true_and]
    induction es with
    | nil => rfl
    | cons e es' ihes =>
      simp only [retagList, stripList, List.cons.injEq]
      exact ⟨ih e (by simp), ihes (fun v hv => ih v (by simp [hv]))⟩
  | hobj o fs ih =>
    simp only [retag, strip, Val.vobj.injEq, true_and]
    induction fs with
    | nil => rfl
    | cons kv fs' ihfs =>
      obtain ⟨k, v⟩ := kv
      simp only [retagFields, stripFields, List.cons.injEq, Prod.mk.injEq, true_and]
      exact ⟨ih (k, v) (by simp), ihfs (fun kv hkv => ih kv (by simp [hkv]))⟩
  | hfun o nm => rfl

mutual

/-- Safety of a value for the sandbox: every composite node and every
function value it contains is owned by the `guest` realm.  A host-owned
function reachable from the script would be an escape. -/
def guestSafe : Val → Bool
  | vundef => true
  | vnull => true
  | vbool _ => true
  | vnum _ => true
  | vstr _ => true
  | varr o es => decide (o = .guest) && guestSafeList es
  | vobj o fs => decide (o = .guest) && guestSafeFields fs
  | vfun o _ => decide (o = .guest)

/-- `guestSafe` over array members. -/
def guestSafeList : List Val → Bool
  | [] => true
  | v :: vs => guestSafe v && guestSafeList vs

/-- `guestSafe` over object fields. -/
def guestSafeFields : List (String × Val) → Bool
  | [] => true
  | (_, v) :: fs => guestSafe v && guestSafeFields fs

end

/-- Is the value a host-owned function — the forbidden escape target? -/
def isHostFun : Val → Bool
  | vfun .host _ => true
  | _ => false

/-- A guest-safe value is never a host function. -/
theorem guestSafe_not_hostFun (v : Val) (h : guestSafe v = true) :
    isHostFun v = false := by
  cases v with
  | vfun o nm =>
    cases o with
    | host => simp [guestSafe] at h
    | guest => rfl
  | vundef => rfl
  | vnull => rfl
  | vbool b => rfl
  | vnum n => rfl
  | vstr s => rfl
  | varr o es => rfl
  | vobj o fs => rfl

/-- List form of `ownedData_guestSafe`. -/
theorem ownedDataList_guestSafeList (es : List Val)
    (hmem : ∀ v ∈ es, ownedData .guest v = true → guestSafe v = true)
    (h : ownedDataList .guest es = true) : guestSafeList es = true := by
  induction es with
  | nil => rfl
  | cons e es' ih =>
    simp only [ownedDataList, Bool.and_eq_true] at h
    simp only [guestSafeList, Bool.and_eq_true]
    exact ⟨hmem e (by simp) h.1, ih (fun v hv => hmem v (by simp [hv])) h.2⟩

/-- Field form of `ownedData_guestSafe`. -/
theorem ownedDataFields_guestSafeFields (fs : List (String × Val))
    (hmem : ∀ kv ∈ fs, ownedData .guest kv.2 = true → guestSafe kv.2 = true)
    (h : ownedDataFields .guest fs = true) : guestSafeFields fs = true := by
  induction fs with
  | nil => rfl
  | cons kv fs' ih =>
    obtain ⟨k, v⟩ := kv
    simp only [ownedDataFields, Bool.and_eq_true] at h
    simp only [guestSafeFields, Bool.and_eq_true]
    exact ⟨hmem (k, v) (by simp) h.1, ih (fun kv hkv => hmem kv (by simp [hkv])) h.2⟩

/-- Pure parsed data owned by the guest realm is guest-safe. -/
theorem ownedData_guestSafe : ∀ v, ownedData .guest v = true → guestSafe v = true := by
  intro v
  induction v using Val.inductionOn with
  | hundef => intro h; rfl
  | hnull => intro h; rfl
  | hbool b => intro h; rfl
  | hnum n => intro h; rfl
  | hstr s => intro h; rfl
  | harr o es ih =>
    intro h
    simp only [ownedData, Bool.and_eq_true, decide_eq_true_eq] at h
    obtain ⟨rfl, hlist⟩ := h
    simp only [guestSafe, decide_eq_true_eq, decide_True, Bool.true_and]
    exact ownedDataList_guestSafeList es ih hlist
  | hobj o fs ih =>
    intro h
    simp only [ownedData, Bool.and_eq_true, decide_eq_true_eq] at h
    obtain ⟨rfl, hfields⟩ := h
    simp only [guestSafe, decide_eq_true_eq, decide_True, Bool.true_and]
    exact ownedDataFields_guestSafeFields fs ih hfields
  | hfun o nm => intro h; simp [ownedData] at h

/-- A successful association-list lookup returns a stored value. -/
theorem lookup_val_mem (fs : List (String × Val)) (k : String) (w : Val)
    (h : fs.lookup k = some w) : ∃ k', (k', w) ∈ fs := by
  induction fs with
  | nil => simp [List.lookup] at h
  | cons kv fs' ih =>
    obtain ⟨k', v'⟩ := kv
    simp only [List.lookup] at h
    cases hk : (k == k') with
    | true =>
      simp only [hk, Option.some.injEq] at h
      exact ⟨k', by simp [h]⟩
    | false =>
      simp only [hk] at h
      obtain ⟨k'', hmem⟩ := ih h
      exact ⟨k'', by simp [hmem]⟩

/-- Field-list safety gives safety of every stored value. -/
theorem guestSafeFields_mem (fs : List (String × Val)) (k : String) (w : Val)
    (hfs : guestSafeFields fs = true) (h : (k, w) ∈ fs) : guestSafe w = true := by
  induction fs with
  | nil => simp at h
  | cons kv fs' ih =>
    obtain ⟨k', v'⟩ := kv
    simp only [guestSafeFields, Bool.and_eq_true] at hfs
    rcases List.mem_cons.mp h with heq | hmem
    · cases heq
      exact hfs.1
    · exact ih hfs.2 hmem

/-- Member-list safety gives safety of every member. -/
theorem guestSafeList_mem (es : List Val) (w : Val)
    (hes : guestSafeList es = true) (h : w ∈ es) : guestSafe w = true := by
  induction es with
  | nil => simp at h
  | cons e es' ih =>
    simp only [guestSafeList, Bool.and_eq_true] at hes
    rcases List.mem_cons.mp h with rfl | hmem
    · exact hes.1
    · exact ih hes.2 hmem

/-- The prototype members handed out by the guest realm are guest-safe. -/
theorem protoMember_guestSafe (k : String) : guestSafe (protoMember .guest k) = true := by
  unfold protoMember
  repeat' split
  all_goals first | rfl | decide

/-- The function members handed out by the guest realm are guest-safe. -/
theorem funMember_guestSafe (nm k : String) :
    guestSafe (funMember .guest nm k) = true := by
  unfold funMember
  repeat' split
  all_goals first | rfl | decide

/-- Property access evaluated in the guest realm preserves safety: no
own property, prototype member or boxed-primitive member of a guest-safe
receiver is host-owned. -/
theorem accessIn_guestSafe (v : Val) (k : String) (w : Val)
    (hv : guestSafe v = true) (h : accessIn .guest v k = .ok w) :
    guestSafe w = true := by
  cases v with
  | vundef => simp [accessIn] at h
  | vnull => simp [accessIn] at h
  | vbool b =>
    simp only [accessIn, Except.ok.injEq] at h
    subst h
    exact protoMember_guestSafe k
  | vnum n =>
    simp only [accessIn, Except.ok.injEq] at h
    subst h
    exact protoMember_guestSafe k
  | vstr s =>
    simp only [accessIn, Except.ok.injEq] at h
    subst h
    exact protoMember_guestSafe k
  | vobj o fs =>
    simp only [guestSafe, Bool.and_eq_true, decide_eq_true_eq] at hv
    obtain ⟨rfl, hfs⟩ := hv
    simp only [accessIn] at h
    cases hlk : fs.lookup k with
    | some w' =>
      rw [hlk] at h
      simp only [Except.ok.injEq] at h
      obtain ⟨k', hmem⟩ := lookup_val_mem fs k w' hlk
      have hw' := guestSafeFields_mem fs k' w' hfs hmem
      rw [← h]
      exact hw'
    | none =>
      rw [hlk] at h
      simp only [Except.ok.injEq] at h
      subst h
      exact protoMember_guestSafe k
  | varr o es =>
    simp only [guestSafe, Bool.and_eq_true, decide_eq_true_eq] at hv
    obtain ⟨rfl, hes⟩ := hv
    simp only [accessIn] at h
    by_cases hk : k = "length"
    · subst hk
      rw [if_pos rfl] at h
      simp only [Except.ok.injEq] at h
      rw [← h]
      rfl
    · rw [if_neg hk] at h
      simp only [Except.ok.injEq] at h
      rw [← h]
      exact protoMember_guestSafe k
  | vfun o nm =>
    simp only [guestSafe, decide_eq_true_eq] at hv
    subst hv
    simp only [accessIn, Except.ok.injEq] at h
    subst h
    exact funMember_guestSafe nm k

/-- Computed access preserves safety likewise. -/
theorem indexAccess_guestSafe (v kv : Val) (w : Val)
    (hv : guestSafe v = true) (h : indexAccess .guest v kv = .ok w) :
    guestSafe w = true := by
  unfold indexAccess at h
  split at h
  · rename_i es i
    split at h
    · simp only [Except.ok.injEq] at h
      subst h
      rename_i o _ _ hrange
      simp only [guestSafe, Bool.and_eq_true, decide_eq_true_eq] at hv
      cases hget : es.get? i.toNat with
      | some e =>
        have hmem : e ∈ es := List.get?_mem hget
        have hspec : es.getD i.toNat vundef = e := by
          simp only [List.getD]
          rw [hget]
          rfl
        rw [hspec]
        exact guestSafeList_mem es e hv.2 hmem
      | none =>
        have hspec : es.getD i.toNat vundef = vundef := by
          simp only [List.getD]
          rw [hget]
          rfl
        rw [hspec]
        rfl
    · exact accessIn_guestSafe _ _ _ hv h
  · exact accessIn_guestSafe _ _ _ hv h

/-- A chain of property accesses, the shape of the known escape idioms
(`$.constructor`, `x.__proto__.constructor`, …). -/
def accessChain (r : Realm) (v : Val) : List String → Except Exc Val
  | [] => .ok v
  | k :: ks =>
    match accessIn r v k with
    | .ok w => accessChain r w ks
    | .error e => .error e

/-- Chains of property accesses from a guest-safe value stay guest-safe. -/
theorem accessChain_guestSafe :
    ∀ (chain : List String) (v w : Val), guestSafe v = true →
      accessChain .guest v chain = .ok w → guestSafe w = true := by
  intro chain
  induction chain with
  | nil =>
    intro v w hv h
    simp only [accessChain, Except.ok.injEq] at h
    subst h
    exact hv
  | cons k ks ih =>
    intro v w hv h
    simp only [accessChain] at h
    cases hacc : accessIn .guest v k with
    | ok u =>
      rw [hacc] at h
      exact ih u w (accessIn_guestSafe v k u hv hacc) h
    | error e =>
      rw [hacc] at h
      simp at h

/-- Every value bound in the scope is guest-safe. -/
def envSafe (env : Env) : Prop :=
  ∀ nm v, (nm, v) ∈ env → guestSafe v = true

/-- Membership after `envSet`: the old bindings or the new one. -/
theorem envSet_mem (env : Env) (x : String) (v : Val) (nm : String) (w : Val)
    (h : (nm, w) ∈ envSet env x v) : (nm, w) ∈ env ∨ w = v := by
  induction env with
  | nil =>
    simp [envSet] at h
    exact Or.inr h.2
  | cons kv env' ih =>
    obtain ⟨y, u⟩ := kv
    simp only [envSet] at h
    by_cases hy : y = x
    · rw [if_pos hy] at h
      rcases List.mem_cons.mp h with heq | hmem
      · cases heq
        exact Or.inr rfl
      · exact Or.inl (by simp [hmem])
    · rw [if_neg hy] at h
      rcases List.mem_cons.mp h with heq | hmem
      · cases heq
        exact Or.inl (by simp)
      · rcases ih hmem with hold | hnew
        · exact Or.inl (by simp [hold])
        · exact Or.inr hnew

/-- `envSet` then `lookup` of the same name yields the new value. -/
theorem envSet_lookup (env : Env) (x : String) (v : Val) :
    (envSet env x v).lookup x = some v := by
  induction env with
  | nil => simp [envSet, List.lookup]
  | cons kv env' ih =>
    obtain ⟨y, u⟩ := kv
    simp only [envSet]
    by_cases hy : y = x
    · subst hy
      simp [List.lookup]
    · rw [if_neg hy]
      simp only [List.lookup]
      rw [show (x == y) = false by simpa using fun h => hy h.symm]
      exact ih

/-- A safe scope stays safe after binding a safe value. -/
theorem envSafe_envSet (env : Env) (x : String) (v : Val)
    (henv : envSafe env) (hv : guestSafe v = true) : envSafe (envSet env x v) := by
  intro nm w hmem
  rcases envSet_mem env x v nm w hmem with hold | rfl
  · exact henv nm w hold
  · exact hv

/-- Literal values are guest-safe. -/
theorem prim_guestSafe (p : Prim) : guestSafe p.toVal = true := by
  cases p <;> rfl

/-- `+` on the fragment produces primitives. -/
theorem jsAdd_guestSafe (a b w : Val) (h : jsAdd a b = .ok w) :
    guestSafe w = true := by
  unfold jsAdd at h
  repeat' split at h
  all_goals first
    | (simp only [Except.ok.injEq] at h; rw [← h]; rfl)
    | simp at h

/-- Evaluation of any expression of the fragment by guest code over a
safe scope only ever produces guest-safe values: in particular it can
never produce a host function, whatever reflection idiom the expression
spells. -/
theorem evalExpr_guestSafe (e : Expr) :
    ∀ (env : Env) (v : Val), envSafe env → evalExpr .guest env e = .ok v →
      guestSafe v = true := by
  induction e with
  | lit p =>
    intro env v _ h
    simp only [evalExpr, Except.ok.injEq] at h
    rw [← h]
    exact prim_guestSafe p
  | ident x =>
    intro env v henv h
    simp only [evalExpr] at h
    cases hlk : env.lookup x with
    | some u =>
      rw [hlk] at h
      simp only [Except.ok.injEq] at h
      obtain ⟨k', hmem⟩ := lookup_val_mem env x u hlk
      rw [← h]
      exact henv k' u hmem
    | none =>
      rw [hlk] at h
      simp at h
  | member e1 k ih =>
    intro env v henv h
    simp only [evalExpr, bind, Except.bind] at h
    cases he1 : evalExpr .guest env e1 with
    | ok u =>
      rw [he1] at h
      exact accessIn_guestSafe u k v (ih env u henv he1) h
    | error ex =>
      rw [he1] at h
      simp at h
  | indexE e1 ke ih1 ih2 =>
    intro env v henv h
    simp only [evalExpr, bind, Except.bind] at h
    cases he1 : evalExpr .guest env e1 with
    | ok u =>
      rw [he1] at h
      cases hke : evalExpr .guest env ke with
      | ok ku =>
        rw [hke] at h
        exact indexAccess_guestSafe u ku v (ih1 env u henv he1) h
      | error ex =>
        rw [hke] at h
        simp at h
    | error ex =>
      rw [he1] at h
      simp at h
  | add a b iha ihb =>
    intro env v henv h
    simp only [evalExpr, bind, Except.bind] at h
    cases ha : evalExpr .guest env a with
    | ok ua =>
      rw [ha] at h
      cases hb : evalExpr .guest env b with
      | ok ub =>
        rw [hb] at h
        exact jsAdd_guestSafe ua ub v h
      | error ex =>
        rw [hb] at h
        simp at h
    | error ex =>
      rw [ha] at h
      simp at h
  | strictEq a b iha ihb =>
    intro env v henv h
    simp only [evalExpr, bind, Except.bind] at h
    cases ha : evalExpr .guest env a with
    | ok ua =>
      rw [ha] at h
      cases hb : evalExpr .guest env b with
      | ok ub =>
        rw [hb] at h
        simp only [Except.ok.injEq] at h
        rw [← h]
        rfl
      | error ex =>
        rw [hb] at h
        simp at h
    | error ex =>
      rw [ha] at h
      simp at h

/-- Running any statement of the fragment as guest code over a safe
scope leaves the scope safe and returns (if anything) a guest-safe
value. -/
theorem evalStmt_guestSafe : ∀ (fuel : Nat) (s : Stmt) (env : Env)
    (res : Option Val × Env), envSafe env →
    evalStmt .guest fuel env s = .ok res →
    envSafe res.2 ∧ ∀ v, res.1 = some v → guestSafe v = true := by
  intro fuel
  induction fuel with
  | zero =>
    intro s env res _ h
    simp [evalStmt] at h
  | succ fuel ih =>
    intro s env res henv h
    cases s with
    | skip =>
      simp only [evalStmt, Except.ok.injEq] at h
      rw [← h]
      exact ⟨henv, by intro v hv; simp at hv⟩
    | seq a b =>
      simp only [evalStmt, bind, Except.bind] at h
      cases ha : evalStmt .guest fuel env a with
      | ok ra =>
        rw [ha] at h
        obtain ⟨henva, hva⟩ := ih a env ra henv ha
        obtain ⟨r1, env1⟩ := ra
        cases r1 with
        | some v =>
          simp only [Except.ok.injEq] at h
          rw [← h]
          refine ⟨henva, ?_⟩
          intro u hu
          simp only [Option.some.injEq] at hu
          rw [← hu]
          exact hva v rfl
        | none => exact ih b env1 res henva h
      | error e =>
        rw [ha] at h
        simp at h
    | varDecl x oe =>
      cases oe with
      | none =>
        simp only [evalStmt, Except.ok.injEq] at h
        rw [← h]
        exact ⟨envSafe_envSet env x vundef henv rfl, by intro v hv; simp at hv⟩
      | some e =>
        simp only [evalStmt, bind, Except.bind] at h
        cases he : evalExpr .guest env e with
        | ok v =>
          rw [he] at h
          simp only [Except.ok.injEq] at h
          rw [← h]
          refine ⟨envSafe_envSet env x v henv
            (evalExpr_guestSafe e env v henv he), ?_⟩
          intro u hu
          simp at hu
        | error ex =>
          rw [he] at h
          simp at h
    | assign x e =>
      simp only [evalStmt, bind, Except.bind] at h
      cases he : evalExpr .guest env e with
      | ok v =>
        rw [he] at h
        simp only [Except.ok.injEq] at h
        rw [← h]
        refine ⟨envSafe_envSet env x v henv
          (evalExpr_guestSafe e env v henv he), ?_⟩
        intro u hu
        simp at hu
      | error ex =>
        rw [he] at h
        simp at h
    | exprStmt e =>
      simp only [evalStmt, bind, Except.bind] at h
      cases he : evalExpr .guest env e with
      | ok v =>
        rw [he] at h
        simp only [Except.ok.injEq] at h
        rw [← h]
        exact ⟨henv, by intro u hu; simp at hu⟩
      | error ex =>
        rw [he] at h
        simp at h
    | ret oe =>
      cases oe with
      | none =>
        simp only [evalStmt, Except.ok.injEq] at h
        rw [← h]
        refine ⟨henv, ?_⟩
        intro u hu
        simp only [Option.some.injEq] at hu
        rw [← hu]
        rfl
      | some e =>
        simp only [evalStmt, bind, Except.bind] at h
        cases he : evalExpr .guest env e with
        | ok v =>
          rw [he] at h
          simp only [Except.ok.injEq] at h
          rw [← h]
          refine ⟨henv, ?_⟩
          intro u hu
          simp only [Option.some.injEq] at hu
          rw [← hu]
          exact evalExpr_guestSafe e env v henv he
        | error ex =>
          rw [he] at h
          simp at h
    | throwStmt e =>
      simp only [evalStmt, bind, Except.bind] at h
      cases he : evalExpr .guest env e with
      | ok v =>
        rw [he] at h
        simp at h
      | error ex =>
        rw [he] at h
        simp at h
    | whileStmt c b =>
      simp only [evalStmt, bind, Except.bind] at h
      cases hc : evalExpr .guest env c with
      | ok cv =>
        rw [hc] at h
        dsimp only at h
        by_cases ht : truthy cv
        · rw [if_pos ht] at h
          cases hb : evalStmt .guest fuel env b with
          | ok rb =>
            rw [hb] at h
            obtain ⟨henvb, hvb⟩ := ih b env rb henv hb
            obtain ⟨r1, env1⟩ := rb
            cases r1 with
            | some v =>
              simp only [Except.ok.injEq] at h
              rw [← h]
              refine ⟨henvb, ?_⟩
              intro u hu
              simp only [Option.some.injEq] at hu
              rw [← hu]
              exact hvb v rfl
            | none => exact ih (.whileStmt c b) env1 res henvb h
          | error e =>
            rw [hb] at h
            simp at h
        · rw [if_neg ht] at h
          simp only [Except.ok.injEq] at h
          rw [← h]
          exact ⟨henv, by intro u hu; simp at hu⟩
      | error ex =>
        rw [hc] at h
        simp at h

/-- An unconditionally looping statement exhausts any fuel budget: the
model of a non-terminating script hitting the hard timeout. -/
theorem whileTrue_timeout (r : Realm) :
    ∀ (fuel : Nat) (env : Env),
      evalStmt r fuel env (.whileStmt (.lit (.pbool true)) .skip) = .error .timeout := by
  intro fuel
  induction fuel with
  | zero => intro env; rfl
  | succ f ih =>
    intro env
    by_cases hf : f = 0
    · subst hf
      rfl
    · have hbody : evalStmt r f env .skip = .ok (none, env) := by
        cases f with
        | zero => exact absurd rfl hf
        | succ f'' => rfl
      conv_lhs => rw [evalStmt]
      simp only [evalExpr, Prim.toVal, bind, Except.bind, truthy, hbody]
      exact ih env

/-- Membership in the collected mapping, characterized: exactly the
extracted names whose final binding is defined. -/
theorem collectVars_mem (names : List String) (env : Env) (nm : String) (w : Val) :
    (nm, w) ∈ collectVars names env ↔
      nm ∈ names ∧ env.lookup nm = some w ∧ w.isUndef = false := by
  unfold collectVars
  rw [List.mem_filterMap]
  constructor
  · rintro ⟨nm', hnm', hf⟩
    cases hlk : env.lookup nm' with
    | some v =>
      rw [hlk] at hf
      dsimp only at hf
      by_cases hu : v.isUndef
      · rw [if_pos hu] at hf
        simp at hf
      · rw [if_neg hu] at hf
        simp only [Option.some.injEq, Prod.mk.injEq] at hf
        obtain ⟨rfl, rfl⟩ := hf
        exact ⟨hnm', hlk, by simpa using hu⟩
    | none =>
      rw [hlk] at hf
      simp at hf
  · rintro ⟨hnm, hlk, hu⟩
    refine ⟨nm, hnm, ?_⟩
    rw [hlk]
    dsimp only
    rw [if_neg (by simp [hu])]

/-- The extraction scan never emits a name with the internal prefix. -/
theorem scanDecls_no_uu : ∀ (fuel : Nat) (cs : List Char) (nm : String),
    nm ∈ scanDecls fuel cs → startsWithUU nm = false := by
  intro fuel
  induction fuel with
  | zero => intro cs nm h; simp [scanDecls] at h
  | succ fuel ih =>
    intro cs nm h
    cases cs with
    | nil => simp [scanDecls] at h
    | cons c cs' =>
      simp only [scanDecls] at h
      cases hm : matchDeclAt (c :: cs') with
      | some pr =>
        obtain ⟨nm', rest⟩ := pr
        rw [hm] at h
        dsimp only at h
        by_cases huu : startsWithUU nm'
        · rw [if_pos huu] at h
          exact ih rest nm h
        · rw [if_neg huu] at h
          rcases List.mem_cons.mp h with rfl | hmem
          · simpa using huu
          · exact ih rest nm hmem
      | none =>
        rw [hm] at h
        exact ih cs' nm h

/-- The de-duplication worker emits only names from its input. -/
theorem dedupAux_subset : ∀ (l : List String) (seen : List String) (nm : String),
    nm ∈ dedupAux seen l → nm ∈ l := by
  intro l
  induction l with
  | nil => intro seen nm h; simp [dedupAux] at h
  | cons n ns ih =>
    intro seen nm h
    simp only [dedupAux] at h
    by_cases hn : n ∈ seen
    · rw [if_pos hn] at h
      exact List.mem_cons_of_mem n (ih seen nm h)
    · rw [if_neg hn] at h
      rcases List.mem_cons.mp h with rfl | hmem
      · simp
      · exact List.mem_cons_of_mem n (ih (n :: seen) nm hmem)

/-- The de-duplication worker emits no duplicates and nothing already
seen. -/
theorem dedupAux_nodup : ∀ (l : List String) (seen : List String),
    (dedupAux seen l).Nodup ∧ ∀ nm ∈ dedupAux seen l, nm ∉ seen := by
  intro l
  induction l with
  | nil => intro seen; simp [dedupAux]
  | cons n ns ih =>
    intro seen
    simp only [dedupAux]
    by_cases hn : n ∈ seen
    · rw [if_pos hn]
      exact ih seen
    · rw [if_neg hn]
      obtain ⟨hnodup, hunseen⟩ := ih (n :: seen)
      refine ⟨List.nodup_cons.mpr ⟨?_, hnodup⟩, ?_⟩
      · intro hmem
        exact hunseen n hmem (by simp)
      · intro nm hmem
        rcases List.mem_cons.mp hmem with rfl | hmem'
        · exact hn
        · intro habs
          exact hunseen nm hmem' (List.mem_cons_of_mem n habs)

/-- The extracted name list carries no duplicates. -/
theorem extractVariableNames_nodup (code : String) :
    (extractVariableNames code).Nodup :=
  (dedupAux_nodup (scanDecls code.length code.data) []).1

/-- No extracted name carries the internal `__` prefix. -/
theorem extractVariableNames_no_uu (code : String) :
    ∀ nm ∈ extractVariableNames code, startsWithUU nm = false := by
  intro nm hmem
  exact scanDecls_no_uu code.length code.data nm
    (dedupAux_subset (scanDecls code.length code.data) [] nm hmem)

/-- A substring witness by decomposition. -/
theorem strContains_of_decomp (s sub : String) (pre rest : List Char)
    (h : s.data = pre ++ sub.data ++ rest) : strContains s sub = true := by
  unfold strContains
  rw [h]
  exact containsAt_append sub.data pre rest

/-- The size message mentions `too large`. -/
theorem scriptTooLargeMsg_contains (len : Nat) :
    strContains (scriptTooLargeMsg len) "too large" = true := by
  apply strContains_of_decomp _ _ ("Script ".data)
    ((": " ++ toString len ++ " characters (max "
      ++ toString MAX_SCRIPT_LENGTH ++ ")").data)
  show ("Script too large: " ++ toString len ++ " characters (max "
      ++ toString MAX_SCRIPT_LENGTH ++ ")").data = _
  simp only [String.data_append, List.append_assoc]
  rfl

/-- The size message is not empty. -/
theorem scriptTooLargeMsg_ne_empty (len : Nat) : scriptTooLargeMsg len ≠ "" := by
  intro h
  have := congrArg String.data h
  simp [scriptTooLargeMsg, String.data_append] at this

/-- The denylist message mentions `forbidden keyword`. -/
theorem forbiddenKeywordMsg_contains (tok : String) :
    strContains (forbiddenKeywordMsg tok) "forbidden keyword" = true := by
  apply strContains_of_decomp _ _ ("Script contains ".data) ((": " ++ tok).data)
  show ("Script contains forbidden keyword: " ++ tok).data = _
  simp only [String.data_append, List.append_assoc]
  rfl

/-- The denylist message carries the offending token. -/
theorem forbiddenKeywordMsg_contains_tok (tok : String) :
    strContains (forbiddenKeywordMsg tok) tok = true := by
  apply strContains_of_decomp _ _ ("Script contains forbidden keyword: ".data) []
  simp [forbiddenKeywordMsg, String.data_append]

/-- The denylist message is not empty. -/
theorem forbiddenKeywordMsg_ne_empty (tok : String) : forbiddenKeywordMsg tok ≠ "" := by
  intro h
  have := congrArg String.data h
  simp [forbiddenKeywordMsg, String.data_append] at this

/-- The timeout message mentions `timed out`. -/
theorem timedOutMsg_contains : strContains timedOutMsg "timed out" = true := by
  decide

/-- Oversized scripts short-circuit the whole engine: validation throws
before any context is created or script compiled or run. -/
theorem executeTr_oversized (script : UserScript) (data : Val) (mode : Mode)
    (h : script.src.length > MAX_SCRIPT_LENGTH) :
    executeTr script data mode =
      ({ success := false, error := some (scriptTooLargeMsg script.src.length) },
       { realmsBuilt := 0, scriptRuns := 0, failClass := some .validation }) := by
  unfold executeTr validateScript
  rw [if_pos h]

/-- Within the size limit, a matching blocked pattern short-circuits the
engine likewise. -/
theorem executeTr_forbidden (script : UserScript) (data : Val) (mode : Mode)
    (hsize : ¬ script.src.length > MAX_SCRIPT_LENGTH) (tok : String)
    (hfind : BLOCKED_PATTERNS.find? (fun t => wordTest t script.src) = some tok) :
    executeTr script data mode =
      ({ success := false, error := some (forbiddenKeywordMsg tok) },
       { realmsBuilt := 0, scriptRuns := 0, failClass := some .validation }) := by
  unfold executeTr validateScript
  rw [if_neg hsize, hfind]

/-- A context-build failure is classed serialization or runtime, never
validation. -/
theorem buildContext_error_class (data : Val) (m : String) (cls : FailClass)
    (h : buildContext data = .error (m, cls)) :
    cls = .serialization ∨ cls = .runtimeThrew := by
  unfold buildContext at h
  repeat' split at h
  all_goals simp_all

/-- Value-mode outcomes never class as validation. -/
theorem executeValueMode_class (ctx : Env) (script : UserScript) :
    (executeValueMode ctx script).2 ≠ some .validation := by
  unfold executeValueMode
  repeat' split
  all_goals simp

/-- Template-mode outcomes never class as validation. -/
theorem executeTemplateMode_class (ctx : Env) (script : UserScript) :
    (executeTemplateMode ctx script).2 ≠ some .validation := by
  unfold executeTemplateMode
  repeat' split
  all_goals simp

/-- Every blocked pattern is a non-empty token. -/
theorem blocked_tok_ne_nil : ∀ tok ∈ BLOCKED_PATTERNS, tok.data ≠ [] := by
  decide

/-- C5: for every code whose length exceeds `MAX_SCRIPT_LENGTH` (10,000
characters), `execute` returns `success = false` with the
script-too-large rejection message (which contains `"too large"`), and
the rejection happens before any realm is built: no execution context is
constructed and no script is compiled or run. -/
theorem C5_oversize_rejected_before_realm (script : UserScript) (data : Val)
    (mode : Mode) (h : script.src.length > MAX_SCRIPT_LENGTH) :
    execute script data mode =
      { success := false, error := some (scriptTooLargeMsg script.src.length) } ∧
    strContains (scriptTooLargeMsg script.src.length) "too large" = true ∧
    (executeTr script data mode).2.realmsBuilt = 0 ∧
    (executeTr script data mode).2.scriptRuns = 0 ∧
    MAX_SCRIPT_LENGTH = 10000 := by
  have he := executeTr_oversized script data mode h
  refine ⟨?_, scriptTooLargeMsg_contains _, ?_, ?_, rfl⟩
  · unfold execute
    rw [he]
  · rw [he]
  · rw [he]

/-- Witness for C5: a concrete 10,001-character script is rejected as
too large. -/
theorem C5_witness :
    (String.mk (List.replicate 10001 'a')).length > MAX_SCRIPT_LENGTH ∧
    execute { src := String.mk (List.replicate 10001 'a'), ast := .ok .skip }
        vnull .value =
      { success := false, error := some (scriptTooLargeMsg 10001) } := by
  have hlen : (String.mk (List.replicate 10001 'a')).length = 10001 := by
    rw [show (String.mk (List.replicate 10001 'a')).length
        = (List.replicate 10001 'a').length from rfl, List.length_replicate]
  have hgt : (String.mk (List.replicate 10001 'a')).length > MAX_SCRIPT_LENGTH := by
    rw [hlen]
    decide
  refine ⟨hgt, ?_⟩
  have := (C5_oversize_rejected_before_realm
    { src := String.mk (List.replicate 10001 'a'), ast := .ok .skip }
    vnull .value hgt).1
  rw [this, hlen]

/-- C4: within the size limit, a script in which any of the fourteen
denylisted tokens occurs as a whole-word match is rejected by `execute`
with `success = false` and an error message containing
`"forbidden keyword"` and the offending token; a script in which the
tokens occur at most as substrings inside longer identifiers (never
flanked by word boundaries) is not rejected by the denylist. -/
theorem C4_denylist_whole_word (script : UserScript) (data : Val) (mode : Mode)
    (hsize : script.src.length ≤ MAX_SCRIPT_LENGTH) :
    ((∃ tok ∈ BLOCKED_PATTERNS, WholeWordOccurs tok script.src) →
      ∃ tok ∈ BLOCKED_PATTERNS, WholeWordOccurs tok script.src ∧
        execute script data mode =
          { success := false, error := some (forbiddenKeywordMsg tok) } ∧
        strContains (forbiddenKeywordMsg tok) "forbidden keyword" = true ∧
        strContains (forbiddenKeywordMsg tok) tok = true) ∧
    ((∀ tok ∈ BLOCKED_PATTERNS, ¬ WholeWordOccurs tok script.src) →
      validateScript script.src = .ok () ∧
      (executeTr script data mode).2.failClass ≠ some .validation) := by
  have hsize' : ¬ script.src.length > MAX_SCRIPT_LENGTH := by omega
  constructor
  · rintro ⟨tok, htok, hww⟩
    have hwt : wordTest tok script.src = true :=
      (wordTest_iff tok script.src (blocked_tok_ne_nil tok htok)).mpr hww
    have hsome : (BLOCKED_PATTERNS.find? (fun t => wordTest t script.src)).isSome := by
      rw [List.find?_isSome]
      exact ⟨tok, htok, hwt⟩
    obtain ⟨tok', hfind⟩ := Option.isSome_iff_exists.mp hsome
    have htok' : tok' ∈ BLOCKED_PATTERNS := List.mem_of_find?_eq_some hfind
    have hwt' : wordTest tok' script.src = true := by
      have hp := List.find?_some (p := fun t => wordTest t script.src) hfind
      simpa using hp
    refine ⟨tok', htok',
      (wordTest_iff _ _ (blocked_tok_ne_nil tok' htok')).mp hwt', ?_,
      forbiddenKeywordMsg_contains _, forbiddenKeywordMsg_contains_tok _⟩
    unfold execute
    rw [executeTr_forbidden script data mode hsize' tok' hfind]
  · intro hnone
    have hfind : BLOCKED_PATTERNS.find? (fun t => wordTest t script.src) = none := by
      rw [List.find?_eq_none]
      intro tok htok
      cases hw : wordTest tok script.src with
      | true =>
        exact absurd ((wordTest_iff tok script.src
          (blocked_tok_ne_nil tok htok)).mp hw) (hnone tok htok)
      | false => simp
    have hok : validateScript script.src = .ok () := by
      unfold validateScript
      rw [if_neg hsize', hfind]
    refine ⟨hok, ?_⟩
    unfold executeTr
    rw [hok]
    cases hb : buildContext data with
    | error pr =>
      obtain ⟨m, cls⟩ := pr
      dsimp only
      rcases buildContext_error_class data m cls hb with rfl | rfl <;> simp
    | ok ctx =>
      dsimp only
      cases mode with
      | value =>
        have hc := executeValueMode_class ctx script
        cases hvm : executeValueMode ctx script with
        | mk res cls =>
          rw [hvm] at hc
          simp only [hvm]
          simpa using hc
      | template =>
        have hc := executeTemplateMode_class ctx script
        cases hvm : executeTemplateMode ctx script with
        | mk res cls =>
          rw [hvm] at hc
          simp only [hvm]
          simpa using hc

/-- Witness for C4: the script `var e = evaluate(evalx) + xeval;` holds
`eval` only inside longer identifiers and passes validation, while
`var s = myeval; eval(s);` holds a whole-word `eval` and is rejected. -/
theorem C4_witness :
    ("var e = evaluate(evalx) + xeval;" : String).length ≤ MAX_SCRIPT_LENGTH ∧
    (∀ tok ∈ BLOCKED_PATTERNS,
      ¬ WholeWordOccurs tok "var e = evaluate(evalx) + xeval;") ∧
    validateScript "var e = evaluate(evalx) + xeval;" = .ok () ∧
    ("var s = myeval; eval(s);" : String).length ≤ MAX_SCRIPT_LENGTH ∧
    (∃ tok ∈ BLOCKED_PATTERNS, WholeWordOccurs tok "var s = myeval; eval(s);") ∧
    (∃ tok ∈ BLOCKED_PATTERNS, WholeWordOccurs tok "var s = myeval; eval(s);" ∧
      execute { src := "var s = myeval; eval(s);", ast := .ok .skip } vnull .value =
        { success := false, error := some (forbiddenKeywordMsg tok) } ∧
      strContains (forbiddenKeywordMsg tok) "forbidden keyword" = true ∧
      strContains (forbiddenKeywordMsg tok) tok = true) := by
  have hno : ∀ tok ∈ BLOCKED_PATTERNS,
      ¬ WholeWordOccurs tok "var e = evaluate(evalx) + xeval;" := by
    intro tok htok hww
    have := (wordTest_iff tok _ (blocked_tok_ne_nil tok htok)).mpr hww
    revert this
    fin_cases htok <;> decide
  have hyes : ∃ tok ∈ BLOCKED_PATTERNS,
      WholeWordOccurs tok "var s = myeval; eval(s);" := by
    refine ⟨"eval", by decide, ?_⟩
    exact (wordTest_iff "eval" _ (by decide)).mp (by decide)
  refine ⟨by decide, hno, ?_, by decide, hyes, ?_⟩
  · exact ((C4_denylist_whole_word
      { src := "var e = evaluate(evalx) + xeval;", ast := .ok .skip }
      vnull .value (by decide)).2 hno).1
  · exact (C4_denylist_whole_word
      { src := "var s = myeval; eval(s);", ast := .ok .skip }
      vnull .value (by decide)).1 hyes

/-- C10 counterexample: an oversized script with a whole-word `eval`
(followed by 10,001 spaces) is rejected, but by the size check — its
error message does not contain `"forbidden keyword"`, refuting the claim
as stated for scripts above the size limit. -/
theorem C10_counterexample :
    wordTest "eval" ("eval " ++ String.mk (List.replicate 10000 ' ')) = true ∧
    "eval" ∈ BLOCKED_PATTERNS ∧
    execute { src := "eval " ++ String.mk (List.replicate 10000 ' '),
              ast := .ok .skip } vnull .value =
      { success := false, error := some (scriptTooLargeMsg 10005) } ∧
    strContains (scriptTooLargeMsg 10005) "forbidden keyword" = false := by
  have hlen : ("eval " ++ String.mk (List.replicate 10000 ' ')).length = 10005 := by
    rw [show ("eval " ++ String.mk (List.replicate 10000 ' ')).length
        = (("eval " : String).data ++ List.replicate 10000 ' ').length from rfl,
      List.length_append, List.length_replicate]
    rfl
  have hgt : ("eval " ++ String.mk (List.replicate 10000 ' ')).length
      > MAX_SCRIPT_LENGTH := by
    rw [hlen]
    decide
  have he := executeTr_oversized
    { src := "eval " ++ String.mk (List.replicate 10000 ' '), ast := .ok .skip }
    vnull .value hgt
  refine ⟨?_, by decide, ?_, by decide⟩
  · unfold wordTest
    rw [show ("eval " ++ String.mk (List.replicate 10000 ' ')).data
        = ("eval " : String).data ++ List.replicate 10000 ' ' from rfl]
    decide
  · unfold execute
    rw [he]
    dsimp only
    rw [hlen]

/-- C10 (amended): the denylist screening is purely textual over the
entire script text — for every script within the size limit in which a
denylisted token occurs as a whole word anywhere, string literals and
comments included, `execute` rejects the script with a
`"forbidden keyword"` error and never builds a context or runs any
script.  (An oversized script is instead rejected by the earlier size
check.) -/
theorem C10_textual_screen (script : UserScript) (data : Val) (mode : Mode)
    (hsize : script.src.length ≤ MAX_SCRIPT_LENGTH)
    (hocc : ∃ tok ∈ BLOCKED_PATTERNS, wordTest tok script.src = true) :
    ∃ tok ∈ BLOCKED_PATTERNS,
      executeTr script data mode =
        ({ success := false, error := some (forbiddenKeywordMsg tok) },
         { realmsBuilt := 0, scriptRuns := 0, failClass := some .validation }) ∧
      strContains (forbiddenKeywordMsg tok) "forbidden keyword" = true := by
  have hsize' : ¬ script.src.length > MAX_SCRIPT_LENGTH := by omega
  obtain ⟨tok, htok, hwt⟩ := hocc
  have hsome : (BLOCKED_PATTERNS.find? (fun t => wordTest t script.src)).isSome := by
    rw [List.find?_isSome]
    exact ⟨tok, htok, hwt⟩
  obtain ⟨tok', hfind⟩ := Option.isSome_iff_exists.mp hsome
  exact ⟨tok', List.mem_of_find?_eq_some hfind,
    executeTr_forbidden script data mode hsize' tok' hfind,
    forbiddenKeywordMsg_contains _⟩

/-- Witness for C10 (amended): `eval` occurring only inside a string
literal still triggers the rejection, with no context built and no
script run. -/
theorem C10_witness :
    (("var s = 'eval';" : String).length ≤ MAX_SCRIPT_LENGTH ∧
      ∃ tok ∈ BLOCKED_PATTERNS, wordTest tok ("var s = 'eval';" : String) = true) ∧
    ∃ tok ∈ BLOCKED_PATTERNS,
      executeTr { src := "var s = 'eval';",
                  ast := .ok (.varDecl "s" (some (.lit (.pstr "eval")))) } vnull .template =
        ({ success := false, error := some (forbiddenKeywordMsg tok) },
         { realmsBuilt := 0, scriptRuns := 0, failClass := some .validation }) ∧
      strContains (forbiddenKeywordMsg tok) "forbidden keyword" = true := by
  refine ⟨⟨by decide, ⟨"eval", by decide, by decide⟩⟩, ?_⟩
  exact C10_textual_screen
    { src := "var s = 'eval';", ast := .ok (.varDecl "s" (some (.lit (.pstr "eval")))) }
    vnull .template (by decide) ⟨"eval", by decide, by decide⟩

/-- Context-build failure messages are non-empty. -/
theorem buildContext_error_msg_ne (data : Val) (m : String) (cls : FailClass)
    (h : buildContext data = .error (m, cls)) : m ≠ "" := by
  unfold buildContext at h
  split at h
  · simp only [Except.error.injEq, Prod.mk.injEq] at h
    rw [← h.1]
    decide
  · split at h
    · simp at h
    · simp only [Except.error.injEq, Prod.mk.injEq] at h
      rw [← h.1]
      decide

/-- The timeout message is non-empty. -/
theorem timedOutMsg_ne_empty : timedOutMsg ≠ "" := by decide

/-- The outcome shape of value mode: failure exactly when classed, the
error field present on failure, a timeout classed run carrying the
timeout message, and the class never validation or serialization. -/
theorem executeValueMode_spec (ctx : Env) (script : UserScript)
    (res : ScriptResult) (cls : Option FailClass)
    (h : executeValueMode ctx script = (res, cls)) :
    (res.success = false ↔ cls.isSome = true) ∧
    (res.success = true → res.error = none) ∧
    (res.success = false →
      (res.error).isSome = true ∧ res.value = none ∧ res.vars = none) ∧
    (cls = some .timedOut → res.error = some timedOutMsg) ∧
    cls ≠ some .validation ∧ cls ≠ some .serialization := by
  unfold executeValueMode at h
  repeat' split at h
  all_goals simp only [Prod.mk.injEq] at h
  all_goals obtain ⟨rfl, rfl⟩ := h
  all_goals simp

/-- The outcome shape of template mode, as for value mode. -/
theorem executeTemplateMode_spec (ctx : Env) (script : UserScript)
    (res : ScriptResult) (cls : Option FailClass)
    (h : executeTemplateMode ctx script = (res, cls)) :
    (res.success = false ↔ cls.isSome = true) ∧
    (res.success = true → res.error = none) ∧
    (res.success = false →
      (res.error).isSome = true ∧ res.value = none ∧ res.vars = none) ∧
    (cls = some .timedOut → res.error = some timedOutMsg) ∧
    cls ≠ some .validation ∧ cls ≠ some .serialization := by
  unfold executeTemplateMode at h
  repeat' split at h
  all_goals simp only [Prod.mk.injEq] at h
  all_goals obtain ⟨rfl, rfl⟩ := h
  all_goals simp

/-- C3: every `ScriptResult` produced by `execute` satisfies the shape
invariant — on success the `error` field is absent, and on failure the
`error` field is present while both the `value` and `variables` fields
are absent; a result never carries both a payload and an error. -/
theorem C3_result_shape (script : UserScript) (data : Val) (mode : Mode) :
    ((execute script data mode).success = true →
      (execute script data mode).error = none) ∧
    ((execute script data mode).success = false →
      ((execute script data mode).error).isSome = true ∧
      (execute script data mode).value = none ∧
      (execute script data mode).vars = none) := by
  unfold execute executeTr
  cases hval : validateScript script.src with
  | error m => simp
  | ok u =>
    dsimp only
    cases hb : buildContext data with
    | error pr =>
      obtain ⟨m, cls⟩ := pr
      simp
    | ok ctx =>
      dsimp only
      cases mode with
      | value =>
        cases hvm : executeValueMode ctx script with
        | mk res cls =>
          dsimp only
          obtain ⟨-, hok, hfail, -, -, -⟩ :=
            executeValueMode_spec ctx script res cls hvm
          exact ⟨hok, hfail⟩
      | template =>
        cases hvm : executeTemplateMode ctx script with
        | mk res cls =>
          dsimp only
          obtain ⟨-, hok, hfail, -, -, -⟩ :=
            executeTemplateMode_spec ctx script res cls hvm
          exact ⟨hok, hfail⟩

/-- Witness for C3: the shape invariant at a concrete failing run and a
concrete succeeding run. -/
theorem C3_witness :
    ((execute { src := "throw '';", ast := .ok (.throwStmt (.lit (.pstr ""))) }
        vnull .value).error).isSome = true ∧
    (execute { src := "throw '';", ast := .ok (.throwStmt (.lit (.pstr ""))) }
        vnull .value).value = none ∧
    (execute { src := "throw '';", ast := .ok (.throwStmt (.lit (.pstr ""))) }
        vnull .value).vars = none ∧
    (execute { src := "return $", ast := .ok (.ret (some (.ident "$"))) }
        vnull .value).error = none := by
  have hfail := (C3_result_shape
    { src := "throw '';", ast := .ok (.throwStmt (.lit (.pstr ""))) }
    vnull .value).2 rfl
  have hok := (C3_result_shape
    { src := "return $", ast := .ok (.ret (some (.ident "$"))) }
    vnull .value).1 rfl
  exact ⟨hfail.1, hfail.2.1, hfail.2.2, hok⟩

/-- C2 counterexample: the script `throw '';` throws the empty string;
`String(error)` is then empty, so the failure result carries
`error = some ""` — the error field is present but the message is empty,
refuting the claimed non-emptiness. -/
theorem C2_counterexample :
    (execute { src := "throw '';", ast := .ok (.throwStmt (.lit (.pstr ""))) }
        vnull .value).success = false ∧
    (execute { src := "throw '';", ast := .ok (.throwStmt (.lit (.pstr ""))) }
        vnull .value).error = some "" :=
  ⟨rfl, rfl⟩

/-- C2 (amended): for every input, `execute` returns a `ScriptResult`
and never propagates an exception — a result is a failure exactly when
one of the failure classes (validation rejection, data-serialization
failure, compile failure, runtime throw, timeout) occurred, every
failure carries the `error` field, and the messages of validation,
serialization and timeout failures are non-empty (compile failures and
runtime throws propagate the underlying diagnostic or thrown value's
string form verbatim, which for a thrown value may be empty). -/
theorem C2_failures_converted (script : UserScript) (data : Val) (mode : Mode) :
    ((executeTr script data mode).1.success = false ↔
      ((executeTr script data mode).2.failClass).isSome = true) ∧
    ((executeTr script data mode).1.success = false →
      ((executeTr script data mode).1.error).isSome = true) ∧
    ((executeTr script data mode).2.failClass = some .validation ∨
      (executeTr script data mode).2.failClass = some .serialization ∨
      (executeTr script data mode).2.failClass = some .timedOut →
      (executeTr script data mode).1.error ≠ some "") := by
  unfold executeTr
  cases hval : validateScript script.src with
  | error m =>
    unfold validateScript at hval
    split at hval
    · simp only [Except.error.injEq] at hval
      subst hval
      refine ⟨by simp, by simp, ?_⟩
      intro _
      simp only [ne_eq, Option.some.injEq]
      exact scriptTooLargeMsg_ne_empty _
    · split at hval
      · simp only [Except.error.injEq] at hval
        subst hval
        refine ⟨by simp, by simp, ?_⟩
        intro _
        simp only [ne_eq, Option.some.injEq]
        exact forbiddenKeywordMsg_ne_empty _
      · simp at hval
  | ok u =>
    dsimp only
    cases hb : buildContext data with
    | error pr =>
      obtain ⟨m, cls⟩ := pr
      dsimp only
      refine ⟨by simp, by simp, ?_⟩
      intro _
      simp only [ne_eq, Option.some.injEq]
      exact buildContext_error_msg_ne data m cls hb
    | ok ctx =>
      dsimp only
      cases mode with
      | value =>
        cases hvm : executeValueMode ctx script with
        | mk res cls =>
          dsimp only
          obtain ⟨hiff, -, hfail, hto, hnv, hns⟩ :=
            executeValueMode_spec ctx script res cls hvm
          refine ⟨hiff, fun hs => (hfail hs).1, ?_⟩
          rintro (hc | hc | hc)
          · exact absurd hc hnv
          · exact absurd hc hns
          · rw [hto hc]
            simp only [ne_eq, Option.some.injEq]
            exact timedOutMsg_ne_empty
      | template =>
        cases hvm : executeTemplateMode ctx script with
        | mk res cls =>
          dsimp only
          obtain ⟨hiff, -, hfail, hto, hnv, hns⟩ :=
            executeTemplateMode_spec ctx script res cls hvm
          refine ⟨hiff, fun hs => (hfail hs).1, ?_⟩
          rintro (hc | hc | hc)
          · exact absurd hc hnv
          · exact absurd hc hns
          · rw [hto hc]
            simp only [ne_eq, Option.some.injEq]
            exact timedOutMsg_ne_empty

/-- A script whose statement exhausts any fuel ends as a timeout failure
(the context is built and both the init and the user script run). -/
theorem executeTr_timeout (script : UserScript) (data : Val) (mode : Mode)
    (p : Stmt) (ctx : Env) (hval : validateScript script.src = .ok ())
    (hast : script.ast = .ok p) (hb : buildContext data = .ok ctx)
    (hloop : ∀ fuel env, evalStmt .guest fuel env p = .error .timeout) :
    executeTr script data mode =
      ({ success := false, error := some timedOutMsg },
       { realmsBuilt := 1, scriptRuns := 2, failClass := some .timedOut }) := by
  unfold executeTr
  rw [hval, hb]
  cases mode with
  | value =>
    dsimp only
    unfold executeValueMode
    rw [hast]
    dsimp only
    rw [hloop TIMEOUT_MS ctx]
    rfl
  | template =>
    dsimp only
    unfold executeTemplateMode
    rw [hast]
    dsimp only
    rw [hloop TIMEOUT_MS (envSet ctx "__vars" (vobj .guest []))]
    rfl

/-- Witness for C2 (amended) at concrete runs: a timeout failure has a
non-empty message and a success run has no failure class. -/
theorem C2_witness :
    ((executeTr { src := "while(true);", ast := .ok (.whileStmt (.lit (.pbool true)) .skip) } vnull .value).1.error).isSome = true ∧
    (executeTr { src := "while(true);", ast := .ok (.whileStmt (.lit (.pbool true)) .skip) } vnull .value).1.error ≠ some "" ∧
    (((executeTr { src := "return 1", ast := .ok (.ret (some (.lit (.pnum 1)))) } vnull .value).2.failClass).isSome = true →
      (executeTr { src := "return 1", ast := .ok (.ret (some (.lit (.pnum 1)))) } vnull .value).1.success = false) := by
  have hto := C2_failures_converted
    { src := "while(true);", ast := .ok (.whileStmt (.lit (.pbool true)) .skip) }
    vnull .value
  have hok := C2_failures_converted
    { src := "return 1", ast := .ok (.ret (some (.lit (.pnum 1)))) } vnull .value
  have hexec := executeTr_timeout
    { src := "while(true);", ast := .ok (.whileStmt (.lit (.pbool true)) .skip) }
    vnull .value (.whileStmt (.lit (.pbool true)) .skip) _ rfl rfl rfl
    (whileTrue_timeout .guest)
  refine ⟨?_, ?_, ?_⟩
  · exact hto.2.1 (by rw [hexec])
  · refine hto.2.2 (Or.inr (Or.inr ?_))
    rw [hexec]
  · intro hcls
    exact hok.1.mpr hcls

/-- C8: a validated script whose statement exhausts every fuel bound (a
non-terminating loop) makes `execute` fail with the timeout message,
which mentions "timed out"; the run is bounded by the single budget
`TIMEOUT_MS = 1000` (wall-clock milliseconds, abstracted as evaluation
fuel) and the overrun is classed as a timeout, not any other failure. -/
theorem C8_nonterminating_times_out (script : UserScript) (data : Val)
    (mode : Mode) (p : Stmt) (ctx : Env)
    (hval : validateScript script.src = .ok ())
    (hast : script.ast = .ok p) (hb : buildContext data = .ok ctx)
    (hloop : ∀ fuel env, evalStmt .guest fuel env p = .error .timeout) :
    TIMEOUT_MS = 1000 ∧
    (execute script data mode).success = false ∧
    (execute script data mode).error = some timedOutMsg ∧
    strContains timedOutMsg "timed out" = true ∧
    (executeTr script data mode).2.failClass = some .timedOut := by
  have h := executeTr_timeout script data mode p ctx hval hast hb hloop
  refine ⟨rfl, ?_, ?_, by decide, ?_⟩
  · unfold execute
    rw [h]
  · unfold execute
    rw [h]
  · rw [h]

/-- Witness for C8: the infinite loop `while(true);` at concrete input. -/
theorem C8_witness :
    (execute { src := "while(true);", ast := .ok (.whileStmt (.lit (.pbool true)) .skip) } vnull .value).success = false ∧
    (execute { src := "while(true);", ast := .ok (.whileStmt (.lit (.pbool true)) .skip) } vnull .value).error = some timedOutMsg ∧
    strContains timedOutMsg "timed out" = true := by
  have h := C8_nonterminating_times_out
    { src := "while(true);", ast := .ok (.whileStmt (.lit (.pbool true)) .skip) }
    vnull .value (.whileStmt (.lit (.pbool true)) .skip) _ rfl rfl rfl
    (whileTrue_timeout .guest)
  exact ⟨h.2.1, h.2.2.1, h.2.2.2.1⟩

/-- A `return e` statement under positive fuel yields the value of `e`. -/
theorem evalStmt_ret_expr (r : Realm) (fuel : Nat) (env : Env) (e : Expr) (v : Val)
    (he : evalExpr r env e = .ok v) :
    evalStmt r (fuel + 1) env (.ret (some e)) = .ok (some v, env) := by
  unfold evalStmt
  dsimp only
  rw [he]
  rfl

/-- Context building on serializable data: `$` is bound to the data
re-parsed inside the guest realm. -/
theorem buildContext_pure (data : Val) (h : pureJson (nullishData data) = true) :
    buildContext data =
      .ok (envSet (scrubContext baseContext) "$" (retag .guest (nullishData data))) := by
  obtain ⟨s, hs, hp⟩ := parseJson_stringifyJson .guest (nullishData data) h
  unfold buildContext
  rw [hs]
  dsimp only
  rw [hp]

/-- A validated value-mode script `return e` runs to success with the
value of `e` in the built context. -/
theorem executeTr_ret (script : UserScript) (data : Val) (e : Expr)
    (ctx : Env) (v : Val)
    (hval : validateScript script.src = .ok ())
    (hast : script.ast = .ok (.ret (some e)))
    (hb : buildContext data = .ok ctx)
    (he : evalExpr .guest ctx e = .ok v) :
    executeTr script data .value =
      ({ success := true, value := some v },
       { realmsBuilt := 1, scriptRuns := 2, failClass := none }) := by
  unfold executeTr
  rw [hval, hb]
  dsimp only
  unfold executeValueMode
  rw [hast]
  dsimp only
  rw [show evalStmt .guest TIMEOUT_MS ctx (.ret (some e)) = .ok (some v, ctx) from by
    rw [show TIMEOUT_MS = 999 + 1 from rfl]
    exact evalStmt_ret_expr .guest 999 ctx e v he]
  rfl

/-- C6: for every JSON-serializable data value (serializable after the
`data ?? null` normalization), running the script `return $` in value
mode succeeds and yields a value structurally equal to the data — equal
after erasing realm ownership tags, with undefined normalized to null —
and with undefined data the script `return $ === null` yields `true`. -/
theorem C6_return_dollar_roundtrip (data : Val)
    (h : pureJson (nullishData data) = true) :
    (execute { src := "return $", ast := .ok (.ret (some (.ident "$"))) } data .value =
      { success := true, value := some (retag .guest (nullishData data)) } ∧
     strip (retag .guest (nullishData data)) = strip (nullishData data)) ∧
    (data = vundef →
      execute { src := "return $ === null", ast := .ok (.ret (some (.strictEq (.ident "$") (.lit .pnull)))) } data .value =
        { success := true, value := some (vbool true) }) := by
  have hb := buildContext_pure data h
  have he : evalExpr .guest
      (envSet (scrubContext baseContext) "$" (retag .guest (nullishData data)))
      (.ident "$") = .ok (retag .guest (nullishData data)) := by
    unfold evalExpr
    rw [envSet_lookup]
  have hrun := executeTr_ret
    { src := "return $", ast := .ok (.ret (some (.ident "$"))) } data
    (.ident "$") _ _ rfl rfl hb he
  refine ⟨⟨?_, strip_retag .guest _⟩, ?_⟩
  · unfold execute
    rw [hrun]
  · intro hd
    subst hd
    rfl

/-- Witness for C6 at `data = vundef`: the round trip at a concrete
input, with the normalization observable as `$ === null`. -/
theorem C6_witness :
    pureJson (nullishData vundef) = true ∧
    execute { src := "return $", ast := .ok (.ret (some (.ident "$"))) } vundef .value =
      { success := true, value := some (retag .guest (nullishData vundef)) } ∧
    execute { src := "return $ === null", ast := .ok (.ret (some (.strictEq (.ident "$") (.lit .pnull)))) } vundef .value =
      { success := true, value := some (vbool true) } := by
  have h := C6_return_dollar_roundtrip vundef rfl
  exact ⟨rfl, h.1.1, h.2 rfl⟩

/-- C7: the template-mode declared-variable scan is duplicate-free and
drops every name with the internal `__` prefix; the collection step
records exactly the extracted names whose final binding is defined,
each with its final value; and concretely `var a = 1; var b = a + 1;`
with no data yields the mapping a = 1, b = 2, while a user-declared
`__x` never appears in the output. -/
theorem C7_template_extraction :
    (∀ code, (extractVariableNames code).Nodup ∧
      ∀ nm ∈ extractVariableNames code, startsWithUU nm = false) ∧
    (∀ names env nm w, (nm, w) ∈ collectVars names env ↔
      nm ∈ names ∧ env.lookup nm = some w ∧ w.isUndef = false) ∧
    execute { src := "var a = 1; var b = a + 1;", ast := .ok (.seq (.varDecl "a" (some (.lit (.pnum 1)))) (.varDecl "b" (some (.add (.ident "a") (.lit (.pnum 1)))))) } vundef .template =
      { success := true, vars := some (vobj .guest [("a", vnum 1), ("b", vnum 2)]) } ∧
    execute { src := "var __x = 1; var a = 2;", ast := .ok (.seq (.varDecl "__x" (some (.lit (.pnum 1)))) (.varDecl "a" (some (.lit (.pnum 2))))) } vundef .template =
      { success := true, vars := some (vobj .guest [("a", vnum 2)]) } :=
  ⟨fun code => ⟨extractVariableNames_nodup code, extractVariableNames_no_uu code⟩,
    fun names env nm w => collectVars_mem names env nm w, rfl, rfl⟩

/-- Key membership after a single property assignment. -/
theorem objSet_key_mem (fs : List (String × Val)) (k : String) (v : Val)
    (nm : String) :
    (∃ w, (nm, w) ∈ objSet fs k v) ↔ (∃ w, (nm, w) ∈ fs) ∨ nm = k := by
  induction fs with
  | nil =>
    simp [objSet]
  | cons kv rest ih =>
    obtain ⟨k', w'⟩ := kv
    by_cases hk : k' = k
    · subst hk
      simp only [objSet, if_pos rfl]
      constructor
      · rintro ⟨w, hw⟩
        rcases List.mem_cons.mp hw with h | h
        · exact Or.inr (congrArg Prod.fst h)
        · exact Or.inl ⟨w, List.mem_cons_of_mem _ h⟩
      · rintro (⟨w, hw⟩ | rfl)
        · rcases List.mem_cons.mp hw with h | h
          · obtain ⟨rfl, -⟩ := Prod.mk.injEq .. ▸ congrArg id h
            exact ⟨v, List.mem_cons_self _ _⟩
          · exact ⟨w, List.mem_cons_of_mem _ h⟩
        · exact ⟨v, List.mem_cons_self _ _⟩
    · simp only [objSet, if_neg hk]
      constructor
      · rintro ⟨w, hw⟩
        rcases List.mem_cons.mp hw with h | h
        · exact Or.inl ⟨w, h ▸ List.mem_cons_self _ _⟩
        · rcases (ih.mp ⟨w, h⟩) with h' | h'
          · obtain ⟨w'', hw''⟩ := h'
            exact Or.inl ⟨w'', List.mem_cons_of_mem _ hw''⟩
          · exact Or.inr h'
      · rintro (⟨w, hw⟩ | rfl)
        · rcases List.mem_cons.mp hw with h | h
          · exact ⟨w, h ▸ List.mem_cons_self _ _⟩
          · obtain ⟨w'', hw''⟩ := ih.mpr (Or.inl ⟨w, h⟩)
            exact ⟨w'', List.mem_cons_of_mem _ hw''⟩
        · obtain ⟨w'', hw''⟩ := ih.mpr (Or.inr rfl)
          exact ⟨w'', List.mem_cons_of_mem _ hw''⟩

/-- Key membership after folding assignments of a whole list. -/
theorem foldl_objSet_key_mem (l : List (String × Val)) :
    ∀ fs nm, (∃ w, (nm, w) ∈ l.foldl (fun acc kv => objSet acc kv.1 kv.2) fs) ↔
      (∃ w, (nm, w) ∈ fs) ∨ (∃ w, (nm, w) ∈ l) := by
  induction l with
  | nil =>
    intro fs nm
    simp
  | cons kv rest ih =>
    intro fs nm
    obtain ⟨k, v⟩ := kv
    simp only [List.foldl_cons]
    rw [ih]
    rw [objSet_key_mem]
    constructor
    · rintro ((h | rfl) | h)
      · exact Or.inl h
      · exact Or.inr ⟨v, List.mem_cons_self _ _⟩
      · obtain ⟨w, hw⟩ := h
        exact Or.inr ⟨w, List.mem_cons_of_mem _ hw⟩
    · rintro (h | ⟨w, hw⟩)
      · exact Or.inl (Or.inl h)
      · rcases List.mem_cons.mp hw with h | h
        · exact Or.inl (Or.inr (congrArg Prod.fst h))
        · exact Or.inr ⟨w, h⟩

/-- C9: in template mode, when the user script runs to completion
without a `return` and leaves the accumulator `__vars` untouched, the
returned mapping is an object whose keys are exactly the extracted
declared names whose final binding is defined (not undefined): a name
declared but never assigned is silently absent from the mapping even
though it is bound in scope. -/
theorem C9_defined_names_only (script : UserScript) (data : Val)
    (p : Stmt) (ctx : Env) (env' : Env)
    (hval : validateScript script.src = .ok ())
    (hast : script.ast = .ok p)
    (hb : buildContext data = .ok ctx)
    (hrun : evalStmt .guest TIMEOUT_MS (envSet ctx "__vars" (vobj .guest [])) p =
      .ok (none, env'))
    (hvars : List.lookup "__vars" env' = some (vobj .guest [])) :
    ∃ fs, (execute script data .template).vars = some (vobj .guest fs) ∧
      ∀ nm, (∃ w, (nm, w) ∈ fs) ↔
        (nm ∈ extractVariableNames script.src ∧
         ∃ w, List.lookup nm env' = some w ∧ w.isUndef = false) := by
  unfold execute executeTr
  rw [hval, hb]
  dsimp only
  unfold executeTemplateMode
  rw [hast]
  dsimp only
  rw [hrun]
  dsimp only
  rw [hvars]
  dsimp only [Option.getD]
  unfold collectInto
  refine ⟨_, rfl, ?_⟩
  intro nm
  rw [foldl_objSet_key_mem]
  constructor
  · rintro (⟨w, hw⟩ | ⟨w, hw⟩)
    · simp at hw
    · obtain ⟨hmem, hlk, hdef⟩ := (collectVars_mem _ env' nm w).mp hw
      exact ⟨hmem, w, hlk, hdef⟩
  · rintro ⟨hmem, w, hlk, hdef⟩
    exact Or.inr ⟨w, (collectVars_mem _ env' nm w).mpr ⟨hmem, hlk, hdef⟩⟩

/-- Witness for C9: `var a;` leaves the mapping empty, while `var a = 1;`
puts `a` in it. -/
theorem C9_witness :
    (execute { src := "var a;", ast := .ok (.varDecl "a" none) } vundef .template).vars = some (vobj .guest []) ∧
    ∃ fs, (execute { src := "var a = 1;", ast := .ok (.varDecl "a" (some (.lit (.pnum 1)))) } vundef .template).vars = some (vobj .guest fs) ∧
      ∃ w, ("a", w) ∈ fs := by
  refine ⟨rfl, ?_⟩
  obtain ⟨fs, hfs, hiff⟩ := C9_defined_names_only
    { src := "var a = 1;", ast := .ok (.varDecl "a" (some (.lit (.pnum 1)))) }
    vundef (.varDecl "a" (some (.lit (.pnum 1)))) _ _ rfl rfl rfl rfl rfl
  refine ⟨fs, hfs, (hiff "a").mpr ⟨?_, vnum 1, rfl, rfl⟩⟩
  rw [show extractVariableNames "var a = 1;" = ["a"] from rfl]
  exact List.mem_singleton_self "a"

/-- A scope all of whose listed values are guest-safe is `envSafe`. -/
theorem envSafe_of_all (env : Env)
    (h : env.all (fun kv => guestSafe kv.2) = true) : envSafe env := by
  intro nm v hmem
  simpa using List.all_eq_true.mp h (nm, v) hmem

/-- The scrubbed fresh context is guest-safe. -/
theorem scrub_base_safe : envSafe (scrubContext baseContext) :=
  envSafe_of_all _ (by decide)

/-- Whatever `JSON.parse` returns at the `String` level is owned by the
parsing realm. -/
theorem parseJson_owned (r : Realm) (s : String) (v : Val)
    (h : parseJson r s = some v) : ownedData r v = true := by
  unfold parseJson at h
  split at h
  · rename_i v' heq
    simp only [Option.some.injEq] at h
    subst h
    exact (parse_owned r (s.length + 1)).1 _ _ _ heq
  · simp at h

/-- A successfully built context is the scrubbed fresh context plus `$`
bound to a guest-owned parse result. -/
theorem buildContext_shape (data : Val) (ctx : Env)
    (hb : buildContext data = .ok ctx) :
    ∃ dollar, ownedData .guest dollar = true ∧
      ctx = envSet (scrubContext baseContext) "$" dollar := by
  unfold buildContext at hb
  split at hb
  · simp at hb
  · rename_i dataJson hjson
    split at hb
    · rename_i dollar hparse
      simp only [Except.ok.injEq] at hb
      exact ⟨dollar, parseJson_owned .guest dataJson dollar hparse, hb.symm⟩
    · simp at hb

/-- C1: in every successfully built execution context, the injected `$`
is a guest-owned value produced only by parsing the serialized data
text inside the realm, every script-accessible binding is guest-safe
(its composite nodes have realm-local identity and no host function is
reachable anywhere inside it), every chain of property accesses from
any binding — the shape of the `constructor`/`prototype`-style escape
idioms — fails closed (it never yields a host-owned function), and no
expression the modelled script fragment can evaluate in that context
produces a host-owned function. -/
theorem C1_isolation (data : Val) (ctx : Env)
    (hb : buildContext data = .ok ctx) :
    (∃ dollar, ownedData .guest dollar = true ∧
      ctx = envSet (scrubContext baseContext) "$" dollar ∧
      List.lookup "$" ctx = some dollar) ∧
    (∀ nm v, (nm, v) ∈ ctx → guestSafe v = true) ∧
    (∀ nm v chain w, (nm, v) ∈ ctx →
      accessChain .guest v chain = .ok w → isHostFun w = false) ∧
    (∀ e v, evalExpr .guest ctx e = .ok v → isHostFun v = false) := by
  obtain ⟨dollar, howned, hctx⟩ := buildContext_shape data ctx hb
  have hsafe : envSafe ctx := by
    rw [hctx]
    exact envSafe_envSet _ _ _ scrub_base_safe (ownedData_guestSafe _ howned)
  refine ⟨⟨dollar, howned, hctx, by rw [hctx]; exact envSet_lookup _ _ _⟩, hsafe, ?_, ?_⟩
  · intro nm v chain w hmem hchain
    exact guestSafe_not_hostFun w
      (accessChain_guestSafe chain v w (hsafe nm v hmem) hchain)
  · intro e v hev
    exact guestSafe_not_hostFun v (evalExpr_guestSafe e ctx v hsafe hev)

/-- Witness for C1 at `data = vnull`: the built context exists and its
bindings and access chains are host-function-free. -/
theorem C1_witness :
    ∃ ctx, buildContext vnull = Except.ok ctx ∧
      (∀ nm v, (nm, v) ∈ ctx → guestSafe v = true) ∧
      (∀ nm v chain w, (nm, v) ∈ ctx →
        accessChain .guest v chain = .ok w → isHostFun w = false) := by
  have h := C1_isolation vnull
    (envSet (scrubContext baseContext) "$" vnull) rfl
  exact ⟨_, rfl, h.2.1, h.2.2.1⟩

end Inker
